import Mathlib

/-!
Verification of the daily capital-allocation engine of the
UCI-MDS-F25-Bitcoin dashboard.

The engine consists of two allocators and an invariant validator:
* `StrategyNew.compute_weights` — the Dip-Boost redistribution allocator of
  `src/dashboard/model/strategy_new.py`;
* `StrategyGt.compute_weights` — the two-layer strategic/tactical allocator of
  `src/dashboard/model/strategy_gt.py`, with its sequential drain normalizer
  `StrategyGt.allocate_sequential`;
* `validate_weights` / `validate_gt_weights` — the invariant validators of the
  two modules.

Modelling conventions.  The source computes with IEEE doubles through
numpy/pandas/scipy; the embedding idealizes machine floats as real numbers
(the reading the spec's own tolerance language presumes, "exactly, in exact
arithmetic").  A price window is its list of daily prices (dates are
positional).  pandas NaN propagation is modelled by `Option` where a NaN
drives a branch (the `pd.isna` guards of the dip-boost loop), and by the
pandas `fillna(0)` convention elsewhere; note that whenever the rolling
standard deviation of the z-score pipeline is zero, the numerator is zero as
well, so Lean's `x / 0 = 0` agrees with `((s-m)/sd).fillna(0)`.  The only
exception the GT pipeline can raise is the `ValueError` of
`construct_features` when the `PriceUSD` column is absent; this is modelled
by the `hasPriceUSD` flag, and the `try/except` of `compute_weights` by the
corresponding uniform-fallback branch.
-/

set_option maxRecDepth 8000

noncomputable section

namespace Btc

open scoped Classical

/-- `MIN_WEIGHT = 1e-5`, the minimum weight per period (framework
requirement), defined identically in both strategy modules. -/
def MIN_WEIGHT : ℝ := 1e-5

namespace StrategyNew

/-- The valid (non-NaN) samples seen by the 200-day rolling statistics of
`construct_features` at row `i`: the rolling window of length 200 over
`past_price = df["PriceUSD"].shift(1)` holds `p[i-200] … p[i-1]`
(clamped to the start of the series; the NaN introduced by `shift(1)` at
row 0 is skipped by pandas). -/
def rollingPast (p : List ℝ) (i : ℕ) : List ℝ :=
  (p.take i).drop (i - 200)

/-- `ma200`: 200-day rolling mean of the shifted price, `min_periods=1`;
NaN (`none`) iff no valid sample exists (row 0). -/
def ma200 (p : List ℝ) (i : ℕ) : Option ℝ :=
  if (rollingPast p i).length = 0 then none
  else some ((rollingPast p i).sum / (rollingPast p i).length)

/-- Sample variance with `ddof = 1` (the pandas `rolling().std()` default),
of a list of at least two samples. -/
def sampleVar (xs : List ℝ) : ℝ :=
  ((xs.map (fun x => (x - xs.sum / xs.length) ^ 2)).sum) / ((xs.length : ℝ) - 1)

/-- `std200`: 200-day rolling standard deviation of the shifted price,
`min_periods=1`; with `ddof = 1` pandas yields NaN (`none`) when fewer than
two valid samples exist. -/
def std200 (p : List ℝ) (i : ℕ) : Option ℝ :=
  if (rollingPast p i).length < 2 then none
  else some (Real.sqrt (sampleVar (rollingPast p i)))

/-- The buy signal of the main loop of `compute_weights`: `none` on the
`pd.isna(ma200) or pd.isna(std200) or std200 == 0 or price >= ma200`
skip, otherwise the Z-score `(ma200 - price) / std200`. -/
def zSignal (p : List ℝ) (day_idx : ℕ) : Option ℝ :=
  match ma200 p day_idx, std200 p day_idx with
  | some ma, some sd =>
      if sd = 0 ∨ ma ≤ p.getD day_idx 0 then none
      else some ((ma - p.getD day_idx 0) / sd)
  | _, _ => none

/-- One iteration of the main loop of `compute_weights` (day `day_idx`),
acting on the weight buffer `w` (indices `0 … n-1`): boost the day's weight
by `1 + boost_alpha * z` and take the excess evenly from the redistribution
indices `max (n - h) (day_idx + 1) … n-1`, unless the redistribution set is
empty or some target would fall below `MIN_WEIGHT` (then the buffer is left
untouched). -/
def dipStep (p : List ℝ) (boost_alpha : ℝ) (n h : ℕ) (w : ℕ → ℝ)
    (day_idx : ℕ) : ℕ → ℝ :=
  match zSignal p day_idx with
  | none => w
  | some z =>
      let boosted := w day_idx * (1 + boost_alpha * z)
      let excess := boosted - w day_idx
      let start := max (n - h) (day_idx + 1)
      if n - start = 0 then w
      else
        let red := excess / ((n - start : ℕ) : ℝ)
        if ∀ i, start ≤ i → i < n → MIN_WEIGHT ≤ w i - red then
          fun i => if i = day_idx then boosted
                   else if start ≤ i ∧ i < n then w i - red else w i
        else w

/-- The `per_day_reduction` of the main loop at day `day_idx` in buffer
state `w`: the excess `w[d] * boost_alpha * z` divided by the number of
redistribution indices (`z` read off the fired signal; the value is only
meaningful when `zSignal` fires and the redistribution set is non-empty,
exactly where the loop uses it). -/
def dipRed (p : List ℝ) (boost_alpha : ℝ) (n h : ℕ) (w : ℕ → ℝ)
    (day_idx : ℕ) : ℝ :=
  (w day_idx * (1 + boost_alpha * (zSignal p day_idx).getD 0) - w day_idx) /
    ((n - max (n - h) (day_idx + 1) : ℕ) : ℝ)

/-- The weight buffer after the full main loop of
`strategy_new.compute_weights`, read back as a list: the loop starts from
the uniform baseline `1/N` (with `N = total_days`) and runs `dipStep` for
every day in forward order, with `rebalance_window = max(total_days // 2,
1)`. -/
def loopWeights (p : List ℝ) (boost_alpha : ℝ) : List ℝ :=
  (List.range p.length).map
    ((List.range p.length).foldl
      (dipStep p boost_alpha p.length (max (p.length / 2) 1))
      (fun _ => 1 / (p.length : ℝ)))

/-- `strategy_new.compute_weights`: uniform `1/N` start, one `dipStep` per
day in forward order, and the final `np.isclose(weight_sum, 1.0, rtol=1e-5,
atol=1e-8)` check with defensive renormalization. -/
def compute_weights (p : List ℝ) (boost_alpha : ℝ) : List ℝ :=
  if p.length = 0 then []
  else
    let weights := loopWeights p boost_alpha
    if |weights.sum - 1| ≤ 1e-8 + 1e-5 * 1 then weights
    else weights.map (fun x => x / weights.sum)

end StrategyNew

namespace StrategyGt

/-- The five momentum window lengths. -/
def WINDOWS : List ℕ := [30, 90, 180, 365, 1461]

/-- The 23 optimized theta parameters (strategic 3×6 block followed by the
5 tactical coefficients). -/
def THETA : List ℝ :=
  [1.3507, 1.073, -1.226, 2.5141, 2.9946, -0.4083, -0.1082, -0.6809,
   0.3465, -0.6804, -2.9974, -2.9991, -1.2658, -0.368, 0.7567, -1.9627,
   -1.9124, 2.9983, 0.5704, 0.0, 0.8669, 1.2546, 5.0]

/-- Numerically-stable softmax: subtract the max, exponentiate, divide by
the sum. -/
def softmax (x : List ℝ) : List ℝ :=
  let m := x.foldl max (x.headD 0)
  let ex := x.map (fun v => Real.exp (v - m))
  ex.map (fun v => v / ex.sum)

/-- The samples seen at row `i` by a rolling window of length `win`
(pandas `rolling(win, …)`): `s[i-win+1] … s[i]`, clamped at the start. -/
def rollWindow (s : List ℝ) (win : ℕ) (i : ℕ) : List ℝ :=
  (s.take (i + 1)).drop (i + 1 - win)

/-- `zscore(s, win)` of `strategy_gt.py` evaluated at row `i`, already
clipped to `[-4, 4]` as in `construct_features`: rolling mean/std with
window `win` and `min_periods = win // 2`; below `min_periods`, and in the
zero-variance case, the NaN resolves to `0` via `fillna(0)` (when the
rolling std is zero all window samples coincide with `s i`, so the
numerator is zero too and Lean's `x / 0 = 0` gives the same value). -/
def zscoreAt (s : List ℝ) (win : ℕ) (i : ℕ) : ℝ :=
  if (rollWindow s win i).length < win / 2 then 0
  else
    max (-4) (min 4 ((s.getD i 0 -
      (rollWindow s win i).sum / (rollWindow s win i).length) /
      Real.sqrt (StrategyNew.sampleVar (rollWindow s win i))))

/-- The lag of `construct_features`: `z_df.shift(1).fillna(0)` — the
feature served at row `d` is the z-score of row `d - 1`, and `0` at row 0. -/
def zLag (s : List ℝ) (win : ℕ) (d : ℕ) : ℝ :=
  if d = 0 then 0 else zscoreAt s win (d - 1)

/-- The 5-vector of lagged momentum features at row `d` of the window:
z-scores are taken of the log prices. -/
def featsAt (p : List ℝ) (d : ℕ) : List ℝ :=
  WINDOWS.map (fun win => zLag (p.map Real.log) win d)

/-- Row `i` of `alpha @ np.r_[1, first_day_feats]` where
`alpha = THETA[:18].reshape(3, 6)` (row-major). -/
def alphaScore (feats : List ℝ) (i : ℕ) : ℝ :=
  ∑ j ∈ Finset.range 6, THETA.getD (6 * i + j) 0 * (1 :: feats).getD j 0

/-- The 3-way strategic mixture: softmax of the three alpha scores of the
first day's (lagged) features. -/
def mixOf (p : List ℝ) : List ℝ :=
  softmax [alphaScore (featsAt p 0) 0, alphaScore (featsAt p 0) 1,
           alphaScore (featsAt p 0) 2]

/-- The Beta function, `Γ(a)Γ(b) / Γ(a+b)` (the scipy normalizing
constant). -/
def betaFn (a b : ℝ) : ℝ :=
  Real.Gamma a * Real.Gamma b / Real.Gamma (a + b)

/-- The Beta(a, b) probability density, `t^(a-1) (1-t)^(b-1) / B(a, b)`,
as evaluated by `scipy.stats.beta.pdf` at the interior points the model
uses. -/
def betaPdf (a b t : ℝ) : ℝ :=
  t ^ (a - 1) * (1 - t) ^ (b - 1) / betaFn a b

/-- `beta_mix_pdf`: the mixture of the three prototype Beta densities
`(0.5, 5)`, `(1, 1)`, `(5, 0.5)` evaluated at the `n` midpoints
`t_d = (d + 0.5) / n` of `np.linspace(0.5/n, 1 - 0.5/n, n)`, divided
by `n`. -/
def beta_mix_pdf (n : ℕ) (mix : List ℝ) (d : ℕ) : ℝ :=
  let t := ((2 * d + 1 : ℕ) : ℝ) / (2 * n)
  (mix.getD 0 0 * betaPdf 0.5 5 t + mix.getD 1 0 * betaPdf 1 1 t +
   mix.getD 2 0 * betaPdf 5 0.5 t) / n

/-- The raw (unnormalized) allocation of day `d`:
`base_alloc * np.exp(-(feat_slice[FEATURES].values @ beta_v))` where
`beta_v = THETA[18:]`. -/
def rawWeight (p : List ℝ) (mix : List ℝ) (d : ℕ) : ℝ :=
  beta_mix_pdf p.length mix d *
    Real.exp (-(∑ k ∈ Finset.range 5,
      (featsAt p d).getD k 0 * THETA.getD (18 + k) 0))

/-- The left-to-right drain loop of `allocate_sequential`: day `d` receives
`MIN_WEIGHT` plus its proportional share `baseline[d] / rem_raw * rem` of
the remaining budget (zero if the remaining baseline mass is exhausted). -/
def drain (bs : List ℝ) (rem rem_raw : ℝ) : List ℝ :=
  match bs with
  | [] => []
  | b :: tl =>
      let share := if rem_raw = 0 then 0 else b / rem_raw * rem
      (MIN_WEIGHT + share) :: drain tl (rem - share) (rem_raw - b)

/-- The first two lines of `allocate_sequential`: `np.clip(raw, 0.0, None)`
followed by the all-zero replacement `raw[:] = 1.0`. -/
def rawPos (raw : List ℝ) : List ℝ :=
  let clipped := raw.map (fun x => max x 0)
  if clipped.sum = 0 then List.replicate raw.length (1 : ℝ) else clipped

/-- The normalized baseline `raw / raw.sum()` of `allocate_sequential`. -/
def baselineOf (raw : List ℝ) : List ℝ :=
  (rawPos raw).map (fun x => x / (rawPos raw).sum)

/-- `allocate_sequential`: clip the raw vector at zero, replace an all-zero
vector by all ones, normalize to a baseline, run the drain loop with budget
`1 - MIN_WEIGHT * n`, and divide by the realized sum as a numerical safety
net. -/
def allocate_sequential (raw : List ℝ) : List ℝ :=
  let w := drain (baselineOf raw) (1 - MIN_WEIGHT * raw.length)
    (baselineOf raw).sum
  w.map (fun x => x / w.sum)

/-- `strategy_gt.compute_weights`: empty window → empty output; fewer than
50 days → uniform fallback; a raising `construct_features` (column absent)
→ uniform fallback via the `try/except`; otherwise the strategic mixture
fixes the baseline curve, the tactical exponential tilts it, and
`allocate_sequential` normalizes. -/
def compute_weights (hasPriceUSD : Bool) (p : List ℝ) : List ℝ :=
  if p.length = 0 then []
  else if p.length < 50 then List.replicate p.length (1 / (p.length : ℝ))
  else if hasPriceUSD = false then
    List.replicate p.length (1 / (p.length : ℝ))
  else allocate_sequential ((List.range p.length).map (rawWeight p (mixOf p)))

end StrategyGt

/-- The structured report of the invariant validators. -/
structure ValidationResult where
  valid : Bool
  errors : List String
  warnings : List String

/-- `strategy_new.validate_weights`: `valid` is falsified by a non-positive
weight and by a weight below `MIN_WEIGHT`; a sum deviating from 1.0 beyond
the `np.isclose` tolerance only appends a warning. -/
def validate_weights (weights : List ℝ) : ValidationResult :=
  let nonpos := weights.any fun w => decide (w ≤ 0)
  let belowMin := weights.any fun w => decide (w < MIN_WEIGHT)
  { valid := !nonpos && !belowMin
    errors :=
      (if nonpos then ["Found non-positive weights"] else []) ++
      (if belowMin then ["Found weights below MIN_WEIGHT (1e-05)"] else [])
    warnings :=
      if |weights.sum - 1| ≤ 1e-8 + 1e-5 * 1 then []
      else ["Weights sum deviates from 1.0"] }

/-- `strategy_gt.validate_gt_weights` — textually the same checks as
`validate_weights`. -/
def validate_gt_weights (weights : List ℝ) : ValidationResult :=
  let nonpos := weights.any fun w => decide (w ≤ 0)
  let belowMin := weights.any fun w => decide (w < MIN_WEIGHT)
  { valid := !nonpos && !belowMin
    errors :=
      (if nonpos then ["Found non-positive weights"] else []) ++
      (if belowMin then ["Found weights below MIN_WEIGHT (1e-05)"] else [])
    warnings :=
      if |weights.sum - 1| ≤ 1e-8 + 1e-5 * 1 then []
      else ["Weights sum deviates from 1.0"] }

/-! ### List helpers -/

theorem list_sum_map_range (f : ℕ → ℝ) (n : ℕ) :
    ((List.range n).map f).sum = ∑ i ∈ Finset.range n, f i := by
  induction n with
  | zero => simp
  | succ n ih =>
      rw [List.range_succ, List.map_append, List.sum_append,
        Finset.sum_range_succ, ih]
      simp

theorem list_foldl_id {α β : Type} (step : α → β → α) (l : List β)
    (h : ∀ w d, d ∈ l → step w d = w) (w : α) : l.foldl step w = w := by
  induction l generalizing w with
  | nil => rfl
  | cons a l ih =>
      rw [List.foldl_cons, h w a (by simp)]
      exact ih (fun w d hd => h w d (by simp [hd])) w

theorem list_getD_map_range (f : ℕ → ℝ) {n d : ℕ} (h : d < n) :
    ((List.range n).map f).getD d 0 = f d := by
  rw [List.getD_eq_getElem?_getD, List.getElem?_map, List.getElem?_range h]
  rfl

theorem list_sum_map_div (l : List ℝ) (c : ℝ) :
    (l.map (fun x => x / c)).sum = l.sum / c := by
  induction l with
  | nil => simp
  | cons a l ih => simp [ih, add_div]

theorem list_sum_map_affine (l : List ℝ) (A c : ℝ) :
    (l.map (fun b => A + b * c)).sum = l.length * A + l.sum * c := by
  induction l with
  | nil => simp
  | cons a l ih =>
      simp only [List.map_cons, List.sum_cons, ih, List.length_cons]
      push_cast
      ring

/-! ### The sequential drain normalizer -/

namespace StrategyGt

theorem drain_closed (bs : List ℝ) (hbs : ∀ b ∈ bs, 0 ≤ b) (c : ℝ) :
    drain bs (c * bs.sum) bs.sum = bs.map (fun b => MIN_WEIGHT + b * c) := by
  induction bs with
  | nil => rfl
  | cons b tl ih =>
      have hb : 0 ≤ b := hbs b (by simp)
      have htl : ∀ x ∈ tl, 0 ≤ x := fun x hx => hbs x (by simp [hx])
      have htls : 0 ≤ tl.sum := List.sum_nonneg htl
      rw [List.sum_cons]
      have hstep : drain (b :: tl) (c * (b + tl.sum)) (b + tl.sum) =
          (MIN_WEIGHT + (if b + tl.sum = 0 then 0
            else b / (b + tl.sum) * (c * (b + tl.sum)))) ::
          drain tl
            (c * (b + tl.sum) - (if b + tl.sum = 0 then 0
              else b / (b + tl.sum) * (c * (b + tl.sum))))
            (b + tl.sum - b) := rfl
      rw [hstep, List.map_cons]
      by_cases hs : b + tl.sum = 0
      · have hb0 : b = 0 := by linarith
        have ht0 : tl.sum = 0 := by linarith
        rw [if_pos hs]
        congr 1
        · rw [hb0]; ring
        · have e1 : c * (b + tl.sum) - 0 = c * tl.sum := by rw [hs, ht0]; ring
          have e2 : b + tl.sum - b = tl.sum := by ring
          rw [e1, e2]
          exact ih htl
      · rw [if_neg hs]
        have hshare : b / (b + tl.sum) * (c * (b + tl.sum)) = b * c := by
          field_simp
          ring
        rw [hshare]
        congr 1
        have harg1 : c * (b + tl.sum) - b * c = c * tl.sum := by ring
        have harg2 : b + tl.sum - b = tl.sum := by ring
        rw [harg1, harg2]
        exact ih htl

theorem rawPos_length (raw : List ℝ) : (rawPos raw).length = raw.length := by
  unfold rawPos
  by_cases h : (raw.map (fun x => max x 0)).sum = 0 <;> simp [h]

theorem rawPos_nonneg (raw : List ℝ) : ∀ x ∈ rawPos raw, 0 ≤ x := by
  intro x hx
  unfold rawPos at hx
  by_cases h : (raw.map (fun x => max x 0)).sum = 0
  · simp only [h, if_pos rfl] at hx
    rw [List.eq_of_mem_replicate hx]
    norm_num
  · simp only [h, if_neg h] at hx
    obtain ⟨y, _, hy⟩ := List.mem_map.mp hx
    rw [← hy]
    exact le_max_right y 0

theorem rawPos_sum_pos (raw : List ℝ) (hne : raw ≠ []) :
    0 < (rawPos raw).sum := by
  rcases lt_or_eq_of_le (List.sum_nonneg (rawPos_nonneg raw)) with h | h
  · exact h
  · exfalso
    unfold rawPos at h
    by_cases hc : (raw.map (fun x => max x 0)).sum = 0
    · rw [if_pos hc] at h
      rw [List.sum_replicate, nsmul_eq_mul, mul_one] at h
      have : raw.length ≠ 0 := fun h0 => hne (List.eq_nil_of_length_eq_zero h0)
      exact this (by exact_mod_cast h.symm)
    · rw [if_neg hc] at h
      exact hc h.symm

theorem baselineOf_sum (raw : List ℝ) (hne : raw ≠ []) :
    (baselineOf raw).sum = 1 := by
  unfold baselineOf
  rw [list_sum_map_div]
  exact div_self (ne_of_gt (rawPos_sum_pos raw hne))

theorem baselineOf_nonneg (raw : List ℝ) : ∀ x ∈ baselineOf raw, 0 ≤ x := by
  intro x hx
  unfold baselineOf at hx
  obtain ⟨y, hy, hxy⟩ := List.mem_map.mp hx
  rw [← hxy]
  rcases eq_or_ne raw [] with rfl | hne
  · simp [rawPos] at hy
  · exact div_nonneg (rawPos_nonneg raw y hy) (le_of_lt (rawPos_sum_pos raw hne))

theorem baselineOf_length (raw : List ℝ) :
    (baselineOf raw).length = raw.length := by
  unfold baselineOf
  rw [List.length_map, rawPos_length]

theorem allocSeq_closed (raw : List ℝ) (hne : raw ≠ []) :
    allocate_sequential raw =
      (baselineOf raw).map
        (fun b => MIN_WEIGHT + b * (1 - MIN_WEIGHT * raw.length)) := by
  unfold allocate_sequential
  have hB : (baselineOf raw).sum = 1 := baselineOf_sum raw hne
  have hd := drain_closed (baselineOf raw) (baselineOf_nonneg raw)
    (1 - MIN_WEIGHT * raw.length)
  rw [hB, mul_one] at hd
  have hsum : ((baselineOf raw).map
      (fun b => MIN_WEIGHT + b * (1 - MIN_WEIGHT * raw.length))).sum = 1 := by
    rw [list_sum_map_affine, baselineOf_length, hB]
    ring
  simp only [hB, hd, hsum, div_one]
  exact List.map_id' _

theorem allocSeq_sum (raw : List ℝ) (hne : raw ≠ []) :
    (allocate_sequential raw).sum = 1 := by
  rw [allocSeq_closed raw hne, list_sum_map_affine, baselineOf_length,
    baselineOf_sum raw hne]
  ring

theorem allocSeq_floor (raw : List ℝ) (hne : raw ≠ [])
    (hn : raw.length ≤ 100000) :
    ∀ x ∈ allocate_sequential raw, MIN_WEIGHT ≤ x := by
  intro x hx
  rw [allocSeq_closed raw hne] at hx
  obtain ⟨b, hb, hbx⟩ := List.mem_map.mp hx
  rw [← hbx]
  have hb0 : 0 ≤ b := baselineOf_nonneg raw b hb
  have hc : 0 ≤ 1 - MIN_WEIGHT * raw.length := by
    have : (raw.length : ℝ) ≤ 100000 := by exact_mod_cast hn
    unfold MIN_WEIGHT
    nlinarith
  nlinarith

theorem allocSeq_replicate (n : ℕ) (hn : 1 ≤ n) (c : ℝ) (hc : 0 < c) :
    allocate_sequential (List.replicate n c) =
      List.replicate n (1 / (n : ℝ)) := by
  have hne : List.replicate n c ≠ [] := by
    simp [List.replicate_eq_nil_iff]
    omega
  have hnR : (0 : ℝ) < n := by exact_mod_cast hn
  have hclip : (List.replicate n c).map (fun x => max x 0) =
      List.replicate n c := by
    rw [List.map_replicate, max_eq_left hc.le]
  have hsumc : (List.replicate n c).sum = n * c := by
    rw [List.sum_replicate, nsmul_eq_mul]
  have hn0 : (n : ℝ) ≠ 0 := ne_of_gt hnR
  have hraw : rawPos (List.replicate n c) = List.replicate n c := by
    unfold rawPos
    simp only [hclip, hsumc, List.length_replicate]
    rw [if_neg (by positivity)]
  have hbase : baselineOf (List.replicate n c) =
      List.replicate n (1 / (n : ℝ)) := by
    unfold baselineOf
    rw [hraw, hsumc, List.map_replicate]
    congr 1
    rw [div_eq_div_iff (mul_ne_zero hn0 (ne_of_gt hc)) hn0]
    ring
  rw [allocSeq_closed _ hne, hbase, List.map_replicate, List.length_replicate]
  congr 1
  have hgoal : MIN_WEIGHT + 1 / (n : ℝ) * (1 - MIN_WEIGHT * n) =
      1 / (n : ℝ) := by
    field_simp
  exact hgoal

theorem allocSeq_getD (raw : List ℝ) (hne : raw ≠ []) (d : ℕ)
    (hd : d < raw.length) :
    (allocate_sequential raw).getD d 0 =
      MIN_WEIGHT + (baselineOf raw).getD d 0 *
        (1 - MIN_WEIGHT * raw.length) := by
  rw [allocSeq_closed raw hne]
  have hd' : d < (baselineOf raw).length := by rw [baselineOf_length]; exact hd
  rw [List.getD_eq_getElem?_getD, List.getElem?_map,
    List.getElem?_eq_getElem hd', List.getD_eq_getElem?_getD,
    List.getElem?_eq_getElem hd']
  rfl

end StrategyGt

/-! ### Claims C6 and C7 -/

/-- C6 (amended): for every non-negative raw vector of length `N` with
`1 ≤ N ≤ 100000 = 1 / MIN_WEIGHT`, the sequential drain normalizer
`allocate_sequential` returns a vector in which every entry is at least
`MIN_WEIGHT` and whose entries sum to exactly 1 (in the exact-arithmetic
reading of the source's floats). -/
theorem c6_allocate_sequential (raw : List ℝ) (hpos : ∀ x ∈ raw, 0 ≤ x)
    (h1 : 1 ≤ raw.length) (h2 : raw.length ≤ 100000) :
    (∀ x ∈ StrategyGt.allocate_sequential raw, MIN_WEIGHT ≤ x) ∧
    (StrategyGt.allocate_sequential raw).sum = 1 := by
  have hne : raw ≠ [] := by
    intro h
    rw [h] at h1
    simp at h1
  exact ⟨StrategyGt.allocSeq_floor raw hne h2, StrategyGt.allocSeq_sum raw hne⟩

theorem c6_allocate_sequential_witness :
    (∀ x ∈ ([1, 2, 3] : List ℝ), 0 ≤ x) ∧
    ((∀ x ∈ StrategyGt.allocate_sequential [1, 2, 3], MIN_WEIGHT ≤ x) ∧
     (StrategyGt.allocate_sequential [1, 2, 3]).sum = 1) :=
  ⟨by norm_num,
   c6_allocate_sequential [1, 2, 3] (by norm_num) (by norm_num) (by norm_num)⟩

/-- C6 counterexample: the all-ones raw vector of length 100001 is
non-negative, yet `allocate_sequential` gives every day the weight
`1 / 100001 < MIN_WEIGHT`: the claim's floor guarantee fails as soon as
`N * MIN_WEIGHT > 1`. -/
theorem c6_counterexample :
    (∀ x ∈ List.replicate 100001 (1 : ℝ), 0 ≤ x) ∧
    ∃ x ∈ StrategyGt.allocate_sequential (List.replicate 100001 (1 : ℝ)),
      x < MIN_WEIGHT := by
  constructor
  · intro x hx
    rw [List.eq_of_mem_replicate hx]
    norm_num
  · rw [StrategyGt.allocSeq_replicate 100001 (by norm_num) 1 (by norm_num)]
    refine ⟨1 / 100001, ?_, ?_⟩
    · rw [List.mem_replicate]
      norm_num
    · rw [MIN_WEIGHT]
      norm_num

/-- C7: the invariant validators are structurally pure (they are total Lean
functions of their input and return a report); `valid` is false exactly when
some weight is ≤ 0 or below `MIN_WEIGHT`; the sum check only drives the
`warnings` list (it appears in no other field), and the two validators
compute the identical report. -/
theorem c7_validator_report (ws : List ℝ) :
    ((validate_weights ws).valid = false ↔
      ∃ x ∈ ws, x ≤ 0 ∨ x < MIN_WEIGHT) ∧
    ((validate_weights ws).warnings = [] ↔
      |ws.sum - 1| ≤ 1e-8 + 1e-5 * 1) ∧
    validate_gt_weights ws = validate_weights ws := by
  refine ⟨?_, ?_, rfl⟩
  · unfold validate_weights
    simp only [Bool.and_eq_false_iff, Bool.not_eq_false', List.any_eq_true,
      decide_eq_true_eq]
    constructor
    · rintro (⟨x, hx, hle⟩ | ⟨x, hx, hlt⟩)
      · exact ⟨x, hx, Or.inl hle⟩
      · exact ⟨x, hx, Or.inr hlt⟩
    · rintro ⟨x, hx, hle | hlt⟩
      · exact Or.inl ⟨x, hx, hle⟩
      · exact Or.inr ⟨x, hx, hlt⟩
  · unfold validate_weights
    simp only []
    by_cases h : |ws.sum - 1| ≤ 1e-8 + 1e-5 * 1
    · simp [h]
    · simp [h]

/-! ### The dip-boost main loop -/

namespace StrategyNew

theorem MIN_WEIGHT_pos : (0 : ℝ) < MIN_WEIGHT := by
  rw [MIN_WEIGHT]
  norm_num

theorem std200_nonneg (p : List ℝ) (d : ℕ) (sd : ℝ)
    (h : std200 p d = some sd) : 0 ≤ sd := by
  unfold std200 at h
  split_ifs at h with hl
  rw [Option.some_inj] at h
  rw [← h]
  exact Real.sqrt_nonneg _

theorem zSignal_pos (p : List ℝ) (d : ℕ) (z : ℝ)
    (h : zSignal p d = some z) : 0 < z := by
  unfold zSignal at h
  rcases hma : ma200 p d with _ | ma <;>
    rcases hsd : std200 p d with _ | sd <;>
      rw [hma, hsd] at h
  all_goals try exact Option.noConfusion h
  have h2 : (if sd = 0 ∨ ma ≤ p.getD d 0 then (none : Option ℝ)
      else some ((ma - p.getD d 0) / sd)) = some z := h
  split_ifs at h2 with hc
  push_neg at hc
  rw [Option.some_inj] at h2
  rw [← h2]
  have hsd0 : 0 ≤ sd := std200_nonneg p d sd hsd
  exact div_pos (sub_pos.mpr hc.2) (lt_of_le_of_ne hsd0 (Ne.symm hc.1))

theorem dipStep_skip (p : List ℝ) (α : ℝ) (n h : ℕ) (w : ℕ → ℝ) (d : ℕ)
    (hz : zSignal p d = none) : dipStep p α n h w d = w := by
  unfold dipStep
  rw [hz]

/-- A committed boost adds to day `d` exactly what it removes from the
redistribution targets: every `dipStep` preserves the total of the weight
buffer over `0 … n-1`. -/
theorem dipStep_sum (p : List ℝ) (α : ℝ) (n h : ℕ) (w : ℕ → ℝ) (d : ℕ)
    (hd : d < n) :
    ∑ i ∈ Finset.range n, dipStep p α n h w d i =
      ∑ i ∈ Finset.range n, w i := by
  cases hz : zSignal p d with
  | none => rw [dipStep_skip p α n h w d hz]
  | some z =>
      unfold dipStep
      simp only [hz]
      by_cases hsz : n - max (n - h) (d + 1) = 0
      · rw [if_pos hsz]
      · rw [if_neg hsz]
        set start := max (n - h) (d + 1) with hstart
        set boosted := w d * (1 + α * z) with hboosted
        set red := (boosted - w d) / ((n - start : ℕ) : ℝ) with hred
        by_cases hcond : ∀ i, start ≤ i → i < n → MIN_WEIGHT ≤ w i - red
        · rw [if_pos hcond]
          have hd1 : d + 1 ≤ start := le_max_right _ _
          have hds : d < start := by omega
          have hsn : start ≤ n := by omega
          have hcast : ((n - start : ℕ) : ℝ) ≠ 0 := by
            exact_mod_cast hsz
          have hdmem : d ∈ Finset.Ico 0 start := by
            rw [Finset.mem_Ico]
            omega
          rw [Finset.range_eq_Ico,
            ← Finset.sum_Ico_consecutive _ (Nat.zero_le start) hsn,
            ← Finset.sum_Ico_consecutive (fun i => w i)
              (Nat.zero_le start) hsn]
          have hAcongr : ∀ i ∈ Finset.Ico 0 start,
              (if i = d then boosted
               else if start ≤ i ∧ i < n then w i - red else w i) =
              Function.update w d boosted i := by
            intro i hi
            rw [Finset.mem_Ico] at hi
            rw [Function.update_apply]
            by_cases hid : i = d
            · rw [hid]
              rw [if_pos rfl, if_pos rfl]
            · rw [if_neg hid, if_neg (show ¬(start ≤ i ∧ i < n) by omega),
                if_neg hid]
          have hA : ∑ i ∈ Finset.Ico 0 start,
              (if i = d then boosted
               else if start ≤ i ∧ i < n then w i - red else w i) =
              boosted + ∑ i ∈ Finset.Ico 0 start \ {d}, w i := by
            rw [Finset.sum_congr rfl hAcongr, Finset.sum_update_of_mem hdmem]
          have hA' : w d + ∑ i ∈ Finset.Ico 0 start \ {d}, w i =
              ∑ i ∈ Finset.Ico 0 start, w i := by
            rw [← Finset.erase_eq]
            exact Finset.add_sum_erase _ _ hdmem
          have hBcongr : ∀ i ∈ Finset.Ico start n,
              (if i = d then boosted
               else if start ≤ i ∧ i < n then w i - red else w i) =
              w i - red := by
            intro i hi
            rw [Finset.mem_Ico] at hi
            rw [if_neg (show i ≠ d by omega), if_pos (by omega)]
          have hB : ∑ i ∈ Finset.Ico start n,
              (if i = d then boosted
               else if start ≤ i ∧ i < n then w i - red else w i) =
              (∑ i ∈ Finset.Ico start n, w i) - ((n - start : ℕ) : ℝ) * red := by
            rw [Finset.sum_congr rfl hBcongr, Finset.sum_sub_distrib,
              Finset.sum_const, Nat.card_Ico, nsmul_eq_mul]
          rw [hA, hB]
          have hcancel : ((n - start : ℕ) : ℝ) * red = boosted - w d := by
            rw [hred, mul_div_cancel₀ _ hcast]
          rw [hcancel]
          linarith
        · rw [if_neg hcond]

/-- A committed boost keeps every buffer entry at or above `MIN_WEIGHT`:
day `d` only grows (the z-score is positive), the targets pass the explicit
floor check, and everything else is untouched. -/
theorem dipStep_floor (p : List ℝ) (α : ℝ) (n h : ℕ) (w : ℕ → ℝ) (d : ℕ)
    (hd : d < n) (hα : 0 ≤ α) (hw : ∀ i, i < n → MIN_WEIGHT ≤ w i) :
    ∀ i, i < n → MIN_WEIGHT ≤ dipStep p α n h w d i := by
  intro i hi
  cases hz : zSignal p d with
  | none =>
      rw [dipStep_skip p α n h w d hz]
      exact hw i hi
  | some z =>
      have hzpos := zSignal_pos p d z hz
      unfold dipStep
      simp only [hz]
      by_cases hsz : n - max (n - h) (d + 1) = 0
      · rw [if_pos hsz]
        exact hw i hi
      · rw [if_neg hsz]
        set start := max (n - h) (d + 1) with hstart
        set boosted := w d * (1 + α * z) with hboosted
        set red := (boosted - w d) / ((n - start : ℕ) : ℝ) with hred
        by_cases hcond : ∀ j, start ≤ j → j < n → MIN_WEIGHT ≤ w j - red
        · rw [if_pos hcond]
          by_cases hid : i = d
          · rw [if_pos hid, hboosted]
            have h1 : 0 ≤ w d * α * z :=
              mul_nonneg (mul_nonneg
                (le_trans MIN_WEIGHT_pos.le (hw d hd)) hα) hzpos.le
            nlinarith [hw d hd]
          · rw [if_neg hid]
            by_cases htar : start ≤ i ∧ i < n
            · rw [if_pos htar]
              exact hcond i htar.1 htar.2
            · rw [if_neg htar]
              exact hw i hi
        · rw [if_neg hcond]
          exact hw i hi

/-- `dipStep` at day `d` only writes day `d` itself and the redistribution
targets `max (n - h) (d + 1) … n - 1`. -/
theorem dipStep_untouched (p : List ℝ) (α : ℝ) (n h : ℕ) (w : ℕ → ℝ)
    (d i : ℕ) (hid : i ≠ d)
    (hout : ¬(max (n - h) (d + 1) ≤ i ∧ i < n)) :
    dipStep p α n h w d i = w i := by
  cases hz : zSignal p d with
  | none => rw [dipStep_skip p α n h w d hz]
  | some z =>
      unfold dipStep
      simp only [hz]
      by_cases hsz : n - max (n - h) (d + 1) = 0
      · rw [if_pos hsz]
      · rw [if_neg hsz]
        by_cases hcond : ∀ j, max (n - h) (d + 1) ≤ j → j < n →
            MIN_WEIGHT ≤ w j -
              (w d * (1 + α * z) - w d) / ((n - max (n - h) (d + 1) : ℕ) : ℝ)
        · rw [if_pos hcond]
          rw [if_neg hid, if_neg hout]
        · rw [if_neg hcond]

theorem foldl_dipStep_sum (p : List ℝ) (α : ℝ) (n h : ℕ) (l : List ℕ)
    (hl : ∀ d ∈ l, d < n) (w : ℕ → ℝ) :
    ∑ i ∈ Finset.range n, l.foldl (dipStep p α n h) w i =
      ∑ i ∈ Finset.range n, w i := by
  induction l generalizing w with
  | nil => rfl
  | cons a l ih =>
      rw [List.foldl_cons, ih (fun d hd => hl d (by simp [hd])),
        dipStep_sum p α n h w a (hl a (by simp))]

theorem foldl_dipStep_floor (p : List ℝ) (α : ℝ) (n h : ℕ) (l : List ℕ)
    (hl : ∀ d ∈ l, d < n) (hα : 0 ≤ α) (w : ℕ → ℝ)
    (hw : ∀ i, i < n → MIN_WEIGHT ≤ w i) :
    ∀ i, i < n → MIN_WEIGHT ≤ l.foldl (dipStep p α n h) w i := by
  induction l generalizing w with
  | nil => exact hw
  | cons a l ih =>
      rw [List.foldl_cons]
      exact ih (fun d hd => hl d (by simp [hd])) _
        (dipStep_floor p α n h w a (hl a (by simp)) hα hw)

/-- Folding steps whose day indices all exceed `d` never changes entry
`d` of the buffer. -/
theorem foldl_dipStep_later (p : List ℝ) (α : ℝ) (n h : ℕ) (l : List ℕ)
    (d : ℕ) (hl : ∀ j ∈ l, d < j) (w : ℕ → ℝ) :
    l.foldl (dipStep p α n h) w d = w d := by
  induction l generalizing w with
  | nil => rfl
  | cons a l ih =>
      rw [List.foldl_cons, ih (fun j hj => hl j (by simp [hj]))]
      have ha : d < a := hl a (by simp)
      exact dipStep_untouched p α n h w a d (by omega)
        (by
          intro hcontra
          have := le_max_right (n - h) (a + 1)
          omega)

theorem loopWeights_sum (p : List ℝ) (α : ℝ) (hne : p ≠ []) :
    (loopWeights p α).sum = 1 := by
  have hn : 0 < p.length := List.length_pos.mpr hne
  unfold loopWeights
  rw [list_sum_map_range, foldl_dipStep_sum p α p.length _ _
    (fun d hd => List.mem_range.mp hd)]
  rw [Finset.sum_const, Finset.card_range, nsmul_eq_mul]
  rw [mul_one_div, div_self (by exact_mod_cast hn.ne')]

theorem computeWeights_eq_loop (p : List ℝ) (α : ℝ) (hne : p ≠ []) :
    compute_weights p α = loopWeights p α := by
  have hn : p.length ≠ 0 := fun h => hne (List.eq_nil_of_length_eq_zero h)
  unfold compute_weights
  rw [if_neg hn]
  simp only [loopWeights_sum p α hne]
  rw [if_pos (by norm_num)]

theorem computeWeights_sum (p : List ℝ) (α : ℝ) (hne : p ≠ []) :
    (compute_weights p α).sum = 1 := by
  rw [computeWeights_eq_loop p α hne]
  exact loopWeights_sum p α hne

theorem computeWeights_length (p : List ℝ) (α : ℝ) (hne : p ≠ []) :
    (compute_weights p α).length = p.length := by
  rw [computeWeights_eq_loop p α hne]
  unfold loopWeights
  rw [List.length_map, List.length_range]

theorem computeWeights_floor (p : List ℝ) (α : ℝ) (hne : p ≠ [])
    (hα : 0 ≤ α) (hn : p.length ≤ 100000) :
    ∀ x ∈ compute_weights p α, MIN_WEIGHT ≤ x := by
  intro x hx
  rw [computeWeights_eq_loop p α hne] at hx
  unfold loopWeights at hx
  obtain ⟨d, hd, hdx⟩ := List.mem_map.mp hx
  rw [List.mem_range] at hd
  rw [← hdx]
  have hnpos : 0 < p.length := List.length_pos.mpr hne
  have hbase : ∀ i, i < p.length → MIN_WEIGHT ≤ 1 / (p.length : ℝ) := by
    intro i _
    have hcast : (0 : ℝ) < (p.length : ℝ) := by exact_mod_cast hnpos
    have hle : (p.length : ℝ) ≤ 100000 := by exact_mod_cast hn
    rw [MIN_WEIGHT, le_div_iff hcast]
    nlinarith
  exact foldl_dipStep_floor p α p.length _ _
    (fun j hj => List.mem_range.mp hj) hα _ hbase d hd

theorem zSignal_none_of_ma_none (p : List ℝ) (d : ℕ)
    (hma : ma200 p d = none) : zSignal p d = none := by
  unfold zSignal
  rcases hsd : std200 p d with _ | sd <;> rw [hma] <;> rfl

theorem zSignal_none_of_std_none (p : List ℝ) (d : ℕ)
    (hsd : std200 p d = none) : zSignal p d = none := by
  unfold zSignal
  rcases hma : ma200 p d with _ | ma <;> rw [hsd] <;> rfl

theorem zSignal_skip_of_cond (p : List ℝ) (d : ℕ) (ma sd : ℝ)
    (hma : ma200 p d = some ma) (hsd : std200 p d = some sd)
    (hcond : sd = 0 ∨ ma ≤ p.getD d 0) : zSignal p d = none := by
  unfold zSignal
  rw [hma, hsd]
  show (if sd = 0 ∨ ma ≤ p.getD d 0 then none
    else some ((ma - p.getD d 0) / sd)) = none
  rw [if_pos hcond]

theorem zSignal_fire (p : List ℝ) (d : ℕ) (ma sd : ℝ)
    (hma : ma200 p d = some ma) (hsd : std200 p d = some sd)
    (hcond : ¬(sd = 0 ∨ ma ≤ p.getD d 0)) :
    zSignal p d = some ((ma - p.getD d 0) / sd) := by
  unfold zSignal
  rw [hma, hsd]
  show (if sd = 0 ∨ ma ≤ p.getD d 0 then none
    else some ((ma - p.getD d 0) / sd)) = _
  rw [if_neg hcond]

theorem rollingPast_replicate (n : ℕ) (c : ℝ) (d : ℕ) :
    rollingPast (List.replicate n c) d =
      List.replicate (min d n - (d - 200)) c := by
  unfold rollingPast
  rw [List.take_replicate, List.drop_replicate]

theorem getD_replicate (n : ℕ) (c : ℝ) (d : ℕ) (hd : d < n) :
    (List.replicate n c).getD d 0 = c := by
  rw [List.getD_eq_getElem?_getD, List.getElem?_replicate, if_pos hd]
  rfl

/-- In an all-constant window every day of the main loop is skipped: day 0
has no past data, and on a later day the 200-day mean equals the price. -/
theorem zSignal_const (n : ℕ) (c : ℝ) (d : ℕ) (hd : d < n) :
    zSignal (List.replicate n c) d = none := by
  rcases Nat.eq_zero_or_pos d with hd0 | hdpos
  · apply zSignal_none_of_ma_none
    unfold ma200
    rw [if_pos]
    subst hd0
    simp [rollingPast]
  · have hx : rollingPast (List.replicate n c) d =
        List.replicate (min d 200) c := by
      rw [rollingPast_replicate]
      congr 1
      omega
    have hL : min d 200 ≠ 0 := by omega
    have hLR : ((min d 200 : ℕ) : ℝ) ≠ 0 := by exact_mod_cast hL
    have hma : ma200 (List.replicate n c) d = some c := by
      unfold ma200
      rw [hx, List.length_replicate, if_neg hL]
      congr 1
      rw [List.sum_replicate, nsmul_eq_mul, mul_comm, mul_div_assoc,
        div_self hLR, mul_one]
    have hget : (List.replicate n c).getD d 0 = c := getD_replicate n c d hd
    rcases hstd : std200 (List.replicate n c) d with _ | sd
    · exact zSignal_none_of_std_none _ _ hstd
    · exact zSignal_skip_of_cond _ _ c sd hma hstd
        (Or.inr (le_of_eq hget.symm))

theorem computeWeights_const (n : ℕ) (hn : 1 ≤ n) (c : ℝ) (α : ℝ) :
    compute_weights (List.replicate n c) α =
      List.replicate n (1 / (n : ℝ)) := by
  have hne : List.replicate n c ≠ [] := by
    simp [List.replicate_eq_nil_iff]
    omega
  rw [computeWeights_eq_loop _ _ hne]
  unfold loopWeights
  rw [List.length_replicate]
  rw [list_foldl_id _ _ (fun w d hdm =>
    dipStep_skip _ _ _ _ w d (zSignal_const n c d (List.mem_range.mp hdm)))]
  rw [List.map_const', List.length_range]

/-! Noninterference machinery for the dip-boost loop. -/

theorem take_agree_of_le {p q : List ℝ} {a b : ℕ}
    (h : p.take b = q.take b) (hab : a ≤ b) : p.take a = q.take a := by
  have hc := congrArg (List.take a) h
  rwa [List.take_take, List.take_take, min_eq_left hab] at hc

theorem getD_agree_of_take (p q : List ℝ) (j : ℕ)
    (h : p.take (j + 1) = q.take (j + 1)) : p.getD j 0 = q.getD j 0 := by
  have h1 : (p.take (j + 1))[j]? = (q.take (j + 1))[j]? := by rw [h]
  rw [List.getElem?_take, List.getElem?_take, if_pos (Nat.lt_succ_self j),
    if_pos (Nat.lt_succ_self j)] at h1
  rw [List.getD_eq_getElem?_getD, List.getD_eq_getElem?_getD, h1]

theorem zSignal_congr (p q : List ℝ) (j : ℕ)
    (h : p.take (j + 1) = q.take (j + 1)) : zSignal p j = zSignal q j := by
  have htj : p.take j = q.take j := take_agree_of_le h (by omega)
  have hr : rollingPast p j = rollingPast q j := by
    unfold rollingPast
    rw [htj]
  have hg : p.getD j 0 = q.getD j 0 := getD_agree_of_take p q j h
  unfold zSignal ma200 std200
  rw [hr, hg]

theorem dipStep_congr (p q : List ℝ) (α : ℝ) (n h : ℕ) (j : ℕ)
    (hpq : p.take (j + 1) = q.take (j + 1)) (w : ℕ → ℝ) :
    dipStep p α n h w j = dipStep q α n h w j := by
  unfold dipStep
  rw [zSignal_congr p q j hpq]

theorem foldl_congr_steps {α β : Type} (f g : α → β → α) (l : List β)
    (h : ∀ w x, x ∈ l → f w x = g w x) (w : α) :
    l.foldl f w = l.foldl g w := by
  induction l generalizing w with
  | nil => rfl
  | cons a l ih =>
      rw [List.foldl_cons, List.foldl_cons, h w a (by simp)]
      exact ih (fun w x hx => h w x (by simp [hx])) _

/-- Two-run noninterference of the dip-boost allocator (exact arithmetic):
windows of equal length that agree on all prices up to index `d` produce
the same weight at index `d`. -/
theorem computeWeights_noninterference (p q : List ℝ) (α : ℝ) (d : ℕ)
    (hlen : p.length = q.length) (hd : d < p.length)
    (hagree : p.take (d + 1) = q.take (d + 1)) :
    (compute_weights p α).getD d 0 = (compute_weights q α).getD d 0 := by
  have hnep : p ≠ [] := by
    intro h0
    rw [h0] at hd
    simp at hd
  have hneq : q ≠ [] := by
    intro h0
    rw [h0] at hlen
    simp at hlen
    exact hnep hlen
  rw [computeWeights_eq_loop p α hnep, computeWeights_eq_loop q α hneq]
  unfold loopWeights
  rw [← hlen]
  rw [list_getD_map_range _ hd, list_getD_map_range _ hd]
  have hsplit : List.range p.length =
      List.range (d + 1) ++
        (List.range (p.length - (d + 1))).map (fun k => (d + 1) + k) := by
    rw [← List.range_add]
    congr 1
    omega
  rw [hsplit, List.foldl_append, List.foldl_append]
  rw [foldl_dipStep_later p α p.length _ _ d
    (by
      intro j hj
      obtain ⟨k, _, hk⟩ := List.mem_map.mp hj
      omega),
    foldl_dipStep_later q α p.length _ _ d
    (by
      intro j hj
      obtain ⟨k, _, hk⟩ := List.mem_map.mp hj
      omega)]
  have hfold : (List.range (d + 1)).foldl
      (dipStep p α p.length (max (p.length / 2) 1))
      (fun _ => 1 / (p.length : ℝ)) =
      (List.range (d + 1)).foldl
        (dipStep q α p.length (max (p.length / 2) 1))
        (fun _ => 1 / (p.length : ℝ)) := by
    apply foldl_congr_steps
    intro w j hj
    rw [List.mem_range] at hj
    exact dipStep_congr p q α p.length _ j
      (take_agree_of_le hagree (by omega)) w
  rw [hfold]

end StrategyNew

namespace StrategyGt

theorem gt_computeWeights_sum (p : List ℝ) (hne : p ≠ []) :
    (compute_weights true p).sum = 1 := by
  have hn : p.length ≠ 0 := fun h => hne (List.eq_nil_of_length_eq_zero h)
  have hnR : ((p.length : ℕ) : ℝ) ≠ 0 := by exact_mod_cast hn
  unfold compute_weights
  rw [if_neg hn]
  by_cases h50 : p.length < 50
  · rw [if_pos h50, List.sum_replicate, nsmul_eq_mul, mul_one_div,
      div_self hnR]
  · rw [if_neg h50, if_neg (by simp)]
    apply allocSeq_sum
    intro hmap
    have := congrArg List.length hmap
    rw [List.length_map, List.length_range] at this
    exact hn this

theorem gt_computeWeights_floor (p : List ℝ) (hne : p ≠ [])
    (hn : p.length ≤ 100000) :
    ∀ x ∈ compute_weights true p, MIN_WEIGHT ≤ x := by
  have hn0 : p.length ≠ 0 := fun h => hne (List.eq_nil_of_length_eq_zero h)
  have hnpos : 0 < p.length := Nat.pos_of_ne_zero hn0
  intro x hx
  unfold compute_weights at hx
  rw [if_neg hn0] at hx
  by_cases h50 : p.length < 50
  · rw [if_pos h50] at hx
    rw [List.eq_of_mem_replicate hx]
    have hcast : (0 : ℝ) < (p.length : ℝ) := by exact_mod_cast hnpos
    have hle : (p.length : ℝ) ≤ 100000 := by exact_mod_cast hn
    rw [MIN_WEIGHT, le_div_iff hcast]
    nlinarith
  · rw [if_neg h50, if_neg (by simp)] at hx
    have hmapne : (List.range p.length).map (rawWeight p (mixOf p)) ≠ [] := by
      intro hmap
      have := congrArg List.length hmap
      rw [List.length_map, List.length_range] at this
      exact hn0 this
    have hlen : ((List.range p.length).map (rawWeight p (mixOf p))).length =
        p.length := by
      rw [List.length_map, List.length_range]
    apply allocSeq_floor _ hmapne _ x hx
    rw [hlen]
    exact hn

end StrategyGt

/-! ### Claims C1 and C2 -/

/-- C1: for every valid non-empty price window and both allocators, the
returned weights sum to 1 up to `1e-5` — in the exact-arithmetic embedding
the sum is exactly 1 (the dip-boost loop preserves the total and the drain
normalizer restores it), so the deviation is 0. -/
theorem c1_sum_invariant (p : List ℝ) (boost_alpha : ℝ) (hne : p ≠ []) :
    |(StrategyNew.compute_weights p boost_alpha).sum - 1| < 1e-5 ∧
    |(StrategyGt.compute_weights true p).sum - 1| < 1e-5 := by
  rw [StrategyNew.computeWeights_sum p boost_alpha hne,
    StrategyGt.gt_computeWeights_sum p hne]
  norm_num

theorem c1_sum_invariant_witness :
    ([1, 2, 3] : List ℝ) ≠ [] ∧
    (|(StrategyNew.compute_weights [1, 2, 3] 1.25).sum - 1| < 1e-5 ∧
     |(StrategyGt.compute_weights true [1, 2, 3]).sum - 1| < 1e-5) :=
  ⟨by simp, c1_sum_invariant [1, 2, 3] 1.25 (by simp)⟩

/-- C2 (amended): for windows of at most `1 / MIN_WEIGHT = 100000` days
(and a non-negative boost factor, matching the spec's `α > 0`), every
weight of both allocators is at least `MIN_WEIGHT` — exactly, with no
epsilon, in the exact-arithmetic embedding.  For longer windows the floor
fails (see the counterexample). -/
theorem c2_floor_invariant (p : List ℝ) (boost_alpha : ℝ) (hne : p ≠ [])
    (hn : p.length ≤ 100000) (hα : 0 ≤ boost_alpha) :
    (∀ x ∈ StrategyNew.compute_weights p boost_alpha, MIN_WEIGHT ≤ x) ∧
    (∀ x ∈ StrategyGt.compute_weights true p, MIN_WEIGHT ≤ x) :=
  ⟨StrategyNew.computeWeights_floor p boost_alpha hne hα hn,
   StrategyGt.gt_computeWeights_floor p hne hn⟩

theorem c2_floor_invariant_witness :
    (([1, 2, 3] : List ℝ) ≠ [] ∧
      ([1, 2, 3] : List ℝ).length ≤ 100000 ∧ (0 : ℝ) ≤ 1.25) ∧
    ((∀ x ∈ StrategyNew.compute_weights [1, 2, 3] 1.25, MIN_WEIGHT ≤ x) ∧
     (∀ x ∈ StrategyGt.compute_weights true [1, 2, 3], MIN_WEIGHT ≤ x)) :=
  ⟨⟨by simp, by norm_num, by norm_num⟩,
   c2_floor_invariant [1, 2, 3] 1.25 (by simp) (by norm_num) (by norm_num)⟩

/-- C2 counterexample: on the valid 200000-day constant window the
dip-boost allocator returns the uniform weight `1/200000 = 5e-6`, which is
below `MIN_WEIGHT - ε` for every tolerance `ε ≤ 5e-6` (here instantiated
at `ε = 1e-6`): the claimed floor fails once `N * MIN_WEIGHT > 1`. -/
theorem c2_counterexample :
    List.replicate 200000 (1 : ℝ) ≠ [] ∧
    ∃ x ∈ StrategyNew.compute_weights (List.replicate 200000 (1 : ℝ)) 1.25,
      x < MIN_WEIGHT - 1e-6 := by
  have hne : List.replicate 200000 (1 : ℝ) ≠ [] := by
    intro h0
    have hl := congrArg List.length h0
    rw [List.length_replicate, List.length_nil] at hl
    norm_num at hl
  refine ⟨hne, ?_⟩
  rw [StrategyNew.computeWeights_const 200000 (by norm_num) 1 1.25]
  refine ⟨1 / 200000, ?_, ?_⟩
  · rw [List.mem_replicate]
    norm_num
  · rw [MIN_WEIGHT]
    norm_num

/-! ### Claims C5, C10, C8 -/

/-- C5: (1) a boost is all-or-nothing — whenever subtracting the
`per_day_reduction` from some redistribution target's current weight would
leave it below `MIN_WEIGHT`, `dipStep` leaves the whole buffer untouched;
(2) consequently, given the claim's premise `1/N ≥ MIN_WEIGHT` (and the
spec's `boost_alpha ≥ 0`), every intermediate buffer state of the main
loop — after any number `k` of iterations, not just the final one — stays
at or above `MIN_WEIGHT` everywhere. -/
theorem c5_boost_all_or_nothing :
    (∀ (p : List ℝ) (boost_alpha : ℝ) (n h : ℕ) (w : ℕ → ℝ) (d : ℕ),
      (∃ i, max (n - h) (d + 1) ≤ i ∧ i < n ∧
        w i - StrategyNew.dipRed p boost_alpha n h w d < MIN_WEIGHT) →
      StrategyNew.dipStep p boost_alpha n h w d = w) ∧
    (∀ (p : List ℝ) (boost_alpha : ℝ), 0 ≤ boost_alpha →
      MIN_WEIGHT ≤ 1 / (p.length : ℝ) →
      ∀ k, k ≤ p.length → ∀ i, i < p.length →
        MIN_WEIGHT ≤ (List.range k).foldl
          (StrategyNew.dipStep p boost_alpha p.length
            (max (p.length / 2) 1))
          (fun _ => 1 / (p.length : ℝ)) i) := by
  constructor
  · intro p α n h w d hex
    cases hz : StrategyNew.zSignal p d with
    | none => exact StrategyNew.dipStep_skip p α n h w d hz
    | some z =>
        unfold StrategyNew.dipStep
        simp only [hz]
        by_cases hsz : n - max (n - h) (d + 1) = 0
        · rw [if_pos hsz]
        · rw [if_neg hsz]
          have hred : StrategyNew.dipRed p α n h w d =
              (w d * (1 + α * z) - w d) /
                ((n - max (n - h) (d + 1) : ℕ) : ℝ) := by
            unfold StrategyNew.dipRed
            rw [hz]
            rfl
          rw [if_neg]
          intro hall
          obtain ⟨i, hi1, hi2, hi3⟩ := hex
          rw [hred] at hi3
          exact absurd (hall i hi1 hi2) (not_le.mpr hi3)
  · intro p α hα hmin k hk i hi
    exact StrategyNew.foldl_dipStep_floor p α p.length _ (List.range k)
      (fun d hd => lt_of_lt_of_le (List.mem_range.mp hd) hk) hα _
      (fun j _ => hmin) i hi

theorem c5_boost_all_or_nothing_witness :
    ((∃ i, max (4 - 4) (2 + 1) ≤ i ∧ i < 4 ∧
        (fun _ => (0 : ℝ)) i -
          StrategyNew.dipRed [] 1.25 4 4 (fun _ => (0 : ℝ)) 2 < MIN_WEIGHT) ∧
      (0 : ℝ) ≤ 1.25 ∧ MIN_WEIGHT ≤ 1 / ((([1, 2] : List ℝ)).length : ℝ) ∧
      2 ≤ ([1, 2] : List ℝ).length ∧ 0 < ([1, 2] : List ℝ).length) ∧
    (StrategyNew.dipStep [] 1.25 4 4 (fun _ => (0 : ℝ)) 2 =
      (fun _ => (0 : ℝ))) ∧
    MIN_WEIGHT ≤ (List.range 2).foldl
      (StrategyNew.dipStep [1, 2] 1.25 ([1, 2] : List ℝ).length
        (max (([1, 2] : List ℝ).length / 2) 1))
      (fun _ => 1 / ((([1, 2] : List ℝ).length : ℕ) : ℝ)) 0 := by
  have hz : StrategyNew.zSignal [] 2 = none := by
    apply StrategyNew.zSignal_none_of_ma_none
    unfold StrategyNew.ma200
    rw [if_pos]
    simp [StrategyNew.rollingPast]
  have hred : StrategyNew.dipRed [] 1.25 4 4 (fun _ => (0 : ℝ)) 2 = 0 := by
    unfold StrategyNew.dipRed
    rw [hz]
    norm_num
  have hex : ∃ i, max (4 - 4) (2 + 1) ≤ i ∧ i < 4 ∧
      (fun _ => (0 : ℝ)) i -
        StrategyNew.dipRed [] 1.25 4 4 (fun _ => (0 : ℝ)) 2 < MIN_WEIGHT := by
    refine ⟨3, by norm_num, by norm_num, ?_⟩
    rw [hred, MIN_WEIGHT]
    norm_num
  have hmin : MIN_WEIGHT ≤ 1 / ((([1, 2] : List ℝ)).length : ℝ) := by
    rw [MIN_WEIGHT]
    norm_num
  exact ⟨⟨hex, by norm_num, hmin, by norm_num, by norm_num⟩,
    c5_boost_all_or_nothing.1 [] 1.25 4 4 (fun _ => (0 : ℝ)) 2 hex,
    c5_boost_all_or_nothing.2 [1, 2] 1.25 (by norm_num) hmin 2
      (by norm_num) 0 (by norm_num)⟩

/-- C10: (1) every `dipStep` preserves the buffer total exactly (the
committed excess equals `per_day_reduction` times the target count);
(2) a step at day `d` writes nothing outside day `d` and the redistribution
range, and that range starts strictly after `d`; (3) hence the buffer sums
to exactly 1 after every iteration of the main loop; (4) so the final
`np.isclose` check passes and the renormalization branch is never taken:
`compute_weights` returns the loop buffer itself. -/
theorem c10_committed_step_conservation :
    (∀ (p : List ℝ) (boost_alpha : ℝ) (n h : ℕ) (w : ℕ → ℝ) (d : ℕ),
      d < n →
      ∑ i ∈ Finset.range n, StrategyNew.dipStep p boost_alpha n h w d i =
        ∑ i ∈ Finset.range n, w i) ∧
    (∀ (p : List ℝ) (boost_alpha : ℝ) (n h : ℕ) (w : ℕ → ℝ) (d i : ℕ),
      i ≠ d → ¬(max (n - h) (d + 1) ≤ i ∧ i < n) →
      StrategyNew.dipStep p boost_alpha n h w d i = w i) ∧
    (∀ n h d : ℕ, d < max (n - h) (d + 1)) ∧
    (∀ (p : List ℝ) (boost_alpha : ℝ) (k : ℕ), p ≠ [] → k ≤ p.length →
      ∑ i ∈ Finset.range p.length,
        (List.range k).foldl
          (StrategyNew.dipStep p boost_alpha p.length
            (max (p.length / 2) 1))
          (fun _ => 1 / (p.length : ℝ)) i = 1) ∧
    (∀ (p : List ℝ) (boost_alpha : ℝ), p ≠ [] →
      StrategyNew.compute_weights p boost_alpha =
        StrategyNew.loopWeights p boost_alpha) := by
  refine ⟨StrategyNew.dipStep_sum, StrategyNew.dipStep_untouched,
    ?_, ?_, StrategyNew.computeWeights_eq_loop⟩
  · intro n h d
    have := le_max_right (n - h) (d + 1)
    omega
  · intro p α k hne hk
    have hn : 0 < p.length := List.length_pos.mpr hne
    rw [StrategyNew.foldl_dipStep_sum p α p.length _ (List.range k)
      (fun d hd => lt_of_lt_of_le (List.mem_range.mp hd) hk)]
    rw [Finset.sum_const, Finset.card_range, nsmul_eq_mul, mul_one_div,
      div_self (by exact_mod_cast hn.ne')]

theorem c10_committed_step_conservation_witness :
    ((0 : ℕ) < 2 ∧ (5 : ℕ) ≠ 0 ∧
      ¬(max (2 - 1) (0 + 1) ≤ 5 ∧ 5 < 2) ∧
      ([1, 2] : List ℝ) ≠ [] ∧ (1 : ℕ) ≤ ([1, 2] : List ℝ).length) ∧
    (∑ i ∈ Finset.range 2,
        StrategyNew.dipStep [1, 2] 1.25 2 1 (fun _ => (1 : ℝ) / 2) 0 i =
      ∑ i ∈ Finset.range 2, (1 : ℝ) / 2) ∧
    (StrategyNew.dipStep [1, 2] 1.25 2 1 (fun _ => (1 : ℝ) / 2) 0 5 =
      (1 : ℝ) / 2) ∧
    (0 : ℕ) < max (2 - 1) (0 + 1) ∧
    (∑ i ∈ Finset.range ([1, 2] : List ℝ).length,
        (List.range 1).foldl
          (StrategyNew.dipStep [1, 2] 1.25 ([1, 2] : List ℝ).length
            (max (([1, 2] : List ℝ).length / 2) 1))
          (fun _ => 1 / ((([1, 2] : List ℝ).length : ℕ) : ℝ)) i = 1) ∧
    StrategyNew.compute_weights [1, 2] 1.25 =
      StrategyNew.loopWeights [1, 2] 1.25 := by
  refine ⟨⟨by norm_num, by norm_num, by norm_num, by simp, by norm_num⟩,
    c10_committed_step_conservation.1 [1, 2] 1.25 2 1 _ 0 (by norm_num),
    c10_committed_step_conservation.2.1 [1, 2] 1.25 2 1 _ 0 5 (by norm_num)
      (by norm_num),
    c10_committed_step_conservation.2.2.1 2 1 0,
    c10_committed_step_conservation.2.2.2.1 [1, 2] 1.25 1 (by simp)
      (by norm_num),
    c10_committed_step_conservation.2.2.2.2 [1, 2] 1.25 (by simp)⟩

/-- C8: the strategic/tactical allocator degrades gracefully — an empty
window yields an empty mapping (with or without the `PriceUSD` column); a
window of `1 ≤ N < 50` days yields exactly the uniform mapping `1/N`; and
when feature construction raises (modelled by the absent `PriceUSD` column,
the pipeline's only exception source) the allocator returns the uniform
mapping instead of propagating. -/
theorem c8_gt_graceful_degradation :
    (StrategyGt.compute_weights true ([] : List ℝ) = [] ∧
     StrategyGt.compute_weights false ([] : List ℝ) = []) ∧
    (∀ p : List ℝ, 1 ≤ p.length → p.length < 50 →
      StrategyGt.compute_weights true p =
        List.replicate p.length (1 / (p.length : ℝ))) ∧
    (∀ p : List ℝ, 1 ≤ p.length →
      StrategyGt.compute_weights false p =
        List.replicate p.length (1 / (p.length : ℝ))) := by
  refine ⟨⟨?_, ?_⟩, ?_, ?_⟩
  · simp [StrategyGt.compute_weights]
  · simp [StrategyGt.compute_weights]
  · intro p h1 h50
    unfold StrategyGt.compute_weights
    rw [if_neg (by omega), if_pos h50]
  · intro p h1
    unfold StrategyGt.compute_weights
    rw [if_neg (by omega)]
    by_cases h50 : p.length < 50
    · rw [if_pos h50]
    · rw [if_neg h50, if_pos rfl]

theorem c8_gt_graceful_degradation_witness :
    ((1 : ℕ) ≤ ([3] : List ℝ).length ∧ ([3] : List ℝ).length < 50) ∧
    StrategyGt.compute_weights true [3] =
      List.replicate ([3] : List ℝ).length (1 / ((([3] : List ℝ).length : ℕ) : ℝ)) ∧
    StrategyGt.compute_weights false [3] =
      List.replicate ([3] : List ℝ).length (1 / ((([3] : List ℝ).length : ℕ) : ℝ)) :=
  ⟨⟨by norm_num, by norm_num⟩,
   c8_gt_graceful_degradation.2.1 [3] (by norm_num) (by norm_num),
   c8_gt_graceful_degradation.2.2 [3] (by norm_num)⟩

/-! ### The 30-day dip example of the spec (C9) and constant windows (C4) -/

namespace StrategyNew

theorem sampleVar_replicate (m : ℕ) (c : ℝ) :
    sampleVar (List.replicate m c) = 0 := by
  unfold sampleVar
  rcases Nat.eq_zero_or_pos m with h0 | hpos
  · subst h0
    simp
  · have hm : ((m : ℕ) : ℝ) ≠ 0 := by exact_mod_cast hpos.ne'
    have hmean : (List.replicate m c).sum /
        (((List.replicate m c).length : ℕ) : ℝ) = c := by
      rw [List.sum_replicate, List.length_replicate, nsmul_eq_mul, mul_comm,
        mul_div_assoc, div_self hm, mul_one]
    rw [hmean, List.map_replicate, sub_self, List.sum_replicate]
    simp

theorem dip30_len :
    (List.replicate 10 (1 : ℝ) ++ 0.8 :: List.replicate 19 1).length = 30 := by
  simp

theorem dip30_take_le (d : ℕ) (hd : d ≤ 10) :
    (List.replicate 10 (1 : ℝ) ++ 0.8 :: List.replicate 19 1).take d =
      List.replicate d (1 : ℝ) := by
  rw [List.take_append_of_le_length
    (by simp only [List.length_replicate]; omega), List.take_replicate]
  congr 1
  omega

theorem dip30_take_ge (d : ℕ) (h11 : 11 ≤ d) (h30 : d ≤ 30) :
    (List.replicate 10 (1 : ℝ) ++ 0.8 :: List.replicate 19 1).take d =
      List.replicate 10 (1 : ℝ) ++ 0.8 :: List.replicate (d - 11) (1 : ℝ) := by
  rw [List.take_append_eq_append_take, List.take_replicate,
    min_eq_right (by omega)]
  congr 1
  have hsplit : d - (List.replicate 10 (1 : ℝ)).length = (d - 11) + 1 := by
    simp only [List.length_replicate]
    omega
  rw [hsplit, List.take_succ_cons, List.take_replicate,
    min_eq_left (by omega)]

theorem dip30_getD (d : ℕ) (hd : d < 30) (hne : d ≠ 10) :
    (List.replicate 10 (1 : ℝ) ++ 0.8 :: List.replicate 19 1).getD d 0 =
      1 := by
  rcases lt_or_le d 10 with h10 | h10
  · rw [List.getD_append _ _ _ _ (by simp only [List.length_replicate]; omega)]
    exact getD_replicate 10 1 d h10
  · have h11 : 11 ≤ d := by omega
    rw [List.getD_append_right _ _ _ _
      (by simp only [List.length_replicate]; omega)]
    have hidx : d - (List.replicate 10 (1 : ℝ)).length = (d - 11) + 1 := by
      simp only [List.length_replicate]
      omega
    rw [hidx, List.getD_cons_succ]
    exact getD_replicate 19 1 (d - 11) (by omega)

/-- Every day of the spec's "30-day uniform window with a 20% drop on day
10" is skipped by the main loop: on days ≤ 10 the rolling std of the
constant prefix is zero (or undefined), and on days > 10 the price (back at
the constant level) sits above the dip-lowered 200-day mean. -/
theorem dip30_zSignal (d : ℕ) (hd : d < 30) :
    zSignal (List.replicate 10 (1 : ℝ) ++ 0.8 :: List.replicate 19 1) d =
      none := by
  set p := List.replicate 10 (1 : ℝ) ++ 0.8 :: List.replicate 19 1 with hp
  rcases Nat.eq_zero_or_pos d with hd0 | hdpos
  · apply zSignal_none_of_ma_none
    unfold ma200
    rw [if_pos]
    subst hd0
    simp [rollingPast]
  · have hroll : rollingPast p d = p.take d := by
      unfold rollingPast
      rw [show d - 200 = 0 by omega, List.drop_zero]
    rcases le_or_lt d 10 with h10 | h10
    · -- constant prefix: zero (or undefined) rolling std
      have hxs : rollingPast p d = List.replicate d (1 : ℝ) := by
        rw [hroll, hp, dip30_take_le d h10]
      rcases lt_or_le d 2 with h2 | h2
      · apply zSignal_none_of_std_none
        unfold std200
        rw [if_pos]
        rw [hxs, List.length_replicate]
        omega
      · have hlen0 : ¬(rollingPast p d).length = 0 := by
          rw [hxs, List.length_replicate]
          omega
        have hma : ma200 p d =
            some ((rollingPast p d).sum / (rollingPast p d).length) := by
          unfold ma200
          rw [if_neg hlen0]
        have hstd : std200 p d = some 0 := by
          unfold std200
          rw [if_neg (by rw [hxs, List.length_replicate]; omega)]
          rw [hxs, sampleVar_replicate, Real.sqrt_zero]
        exact zSignal_skip_of_cond p d _ 0 hma hstd (Or.inl rfl)
    · -- after the dip: price 1 is at or above the lowered mean
      have h11 : 11 ≤ d := by omega
      have hxs : rollingPast p d =
          List.replicate 10 (1 : ℝ) ++ 0.8 :: List.replicate (d - 11) 1 := by
        rw [hroll, hp, dip30_take_ge d h11 (by omega)]
      have hlenN : (rollingPast p d).length = d := by
        rw [hxs]
        simp only [List.length_append, List.length_cons,
          List.length_replicate]
        omega
      have hlen : ((rollingPast p d).length : ℝ) = (d : ℝ) := by
        rw [hlenN]
      have hsum : (rollingPast p d).sum = (d : ℝ) - 0.2 := by
        rw [hxs, List.sum_append, List.sum_cons, List.sum_replicate,
          List.sum_replicate, nsmul_eq_mul, nsmul_eq_mul,
          Nat.cast_sub h11]
        push_cast
        ring
      have hlen0 : ¬(rollingPast p d).length = 0 := by
        rw [hlenN]
        omega
      have hma : ma200 p d = some (((d : ℝ) - 0.2) / (d : ℝ)) := by
        unfold ma200
        rw [if_neg hlen0, hsum, hlen]
      have hget : p.getD d 0 = 1 := dip30_getD d hd (by omega)
      have hdR : (0 : ℝ) < (d : ℝ) := by exact_mod_cast hdpos
      have hcond : ((d : ℝ) - 0.2) / (d : ℝ) ≤ p.getD d 0 := by
        rw [hget, div_le_one hdR]
        linarith
      rcases hstd : std200 p d with _ | sd
      · exact zSignal_none_of_std_none _ _ hstd
      · exact zSignal_skip_of_cond p d _ sd hma hstd (Or.inr hcond)

/-- On the spec's dip example every boost is suppressed, so the allocator
returns the exact uniform mapping. -/
theorem dip30_uniform (boost_alpha : ℝ) :
    compute_weights
      (List.replicate 10 (1 : ℝ) ++ 0.8 :: List.replicate 19 1)
      boost_alpha = List.replicate 30 (1 / 30 : ℝ) := by
  have hne : List.replicate 10 (1 : ℝ) ++ 0.8 :: List.replicate 19 1 ≠ [] := by
    simp
  rw [computeWeights_eq_loop _ _ hne]
  unfold loopWeights
  rw [dip30_len]
  rw [list_foldl_id _ _ (fun w d hdm =>
    dipStep_skip _ _ _ _ w d (dip30_zSignal d (List.mem_range.mp hdm)))]
  rw [List.map_const', List.length_range]
  norm_num

end StrategyNew

/-! ### Claims C9, C4 (amended parts), C3 (amended part) -/

/-- C9 (amended): on the spec's exact input — 30-day uniform-price window
with a single 20% drop on day 10, `boost_alpha = 1.25` — the Dip-Boost
allocator returns exactly the uniform mapping `1/30`: the constant prior
history makes the rolling std on day 10 zero, so the `std200 == 0` guard
suppresses the boost (no finite z-score, let alone `z ≈ 2`), and after the
dip the price sits above the lowered trend mean. -/
theorem c9_dip_example_uniform :
    StrategyNew.compute_weights
      (List.replicate 10 (1 : ℝ) ++ 0.8 :: List.replicate 19 1) 1.25 =
      List.replicate 30 (1 / 30 : ℝ) :=
  StrategyNew.dip30_uniform 1.25

/-- C9 counterexample: on the claimed input, day 10's weight does not
exceed the mean of the other days' weights (both are exactly `1/30`), and
a redistribution-horizon day (day 25) is not strictly below `1/30`. -/
theorem c9_counterexample :
    (StrategyNew.compute_weights
        (List.replicate 10 (1 : ℝ) ++ 0.8 :: List.replicate 19 1)
        1.25).getD 10 0 =
      ((StrategyNew.compute_weights
          (List.replicate 10 (1 : ℝ) ++ 0.8 :: List.replicate 19 1)
          1.25).sum -
        (StrategyNew.compute_weights
          (List.replicate 10 (1 : ℝ) ++ 0.8 :: List.replicate 19 1)
          1.25).getD 10 0) / 29 ∧
    ¬((StrategyNew.compute_weights
        (List.replicate 10 (1 : ℝ) ++ 0.8 :: List.replicate 19 1)
        1.25).getD 25 0 < 1 / 30) := by
  rw [StrategyNew.dip30_uniform 1.25]
  have h10 : (List.replicate 30 (1 / 30 : ℝ)).getD 10 0 = 1 / 30 :=
    StrategyNew.getD_replicate 30 (1 / 30) 10 (by norm_num)
  have h25 : (List.replicate 30 (1 / 30 : ℝ)).getD 25 0 = 1 / 30 :=
    StrategyNew.getD_replicate 30 (1 / 30) 25 (by norm_num)
  have hsum : (List.replicate 30 (1 / 30 : ℝ)).sum = 1 := by
    rw [List.sum_replicate, nsmul_eq_mul]
    norm_num
  rw [h10, h25, hsum]
  norm_num

/-- C4 (amended): a constant-price window produces the exact uniform
mapping for the Dip-Boost allocator at every length, and for the
Strategic/Tactical allocator below its 50-day fallback threshold; at 50
days and beyond the GT model instead emits its (non-uniform) beta-mixture
baseline (see the counterexample). -/
theorem c4_uniform_degeneration :
    (∀ (n : ℕ) (c boost_alpha : ℝ), 1 ≤ n →
      StrategyNew.compute_weights (List.replicate n c) boost_alpha =
        List.replicate n (1 / (n : ℝ))) ∧
    (∀ (n : ℕ) (c : ℝ), 1 ≤ n → n < 50 →
      StrategyGt.compute_weights true (List.replicate n c) =
        List.replicate n (1 / (n : ℝ))) := by
  constructor
  · intro n c boost_alpha h1
    exact StrategyNew.computeWeights_const n h1 c boost_alpha
  · intro n c h1 h50
    unfold StrategyGt.compute_weights
    rw [List.length_replicate, if_neg (by omega), if_pos h50]

theorem c4_uniform_degeneration_witness :
    ((1 : ℕ) ≤ 3 ∧ (3 : ℕ) < 50) ∧
    StrategyNew.compute_weights (List.replicate 3 (7 : ℝ)) 1.25 =
      List.replicate 3 (1 / ((3 : ℕ) : ℝ)) ∧
    StrategyGt.compute_weights true (List.replicate 3 (7 : ℝ)) =
      List.replicate 3 (1 / ((3 : ℕ) : ℝ)) :=
  ⟨⟨by norm_num, by norm_num⟩,
   c4_uniform_degeneration.1 3 7 1.25 (by norm_num),
   c4_uniform_degeneration.2 3 7 (by norm_num) (by norm_num)⟩

/-- C3 (amended): two-run noninterference holds for the Dip-Boost
allocator — two windows of equal length agreeing on all prices up to index
`d` (so differing only at dates after `d`) receive identical weights at
index `d`; in exact arithmetic the final renormalization branch never
fires, so no future price can leak backwards.  The Strategic/Tactical
allocator violates this property (see the counterexample): its drain
normalizer divides by the global raw-weight sum. -/
theorem c3_no_lookahead_dip_boost (p q : List ℝ) (boost_alpha : ℝ) (d : ℕ)
    (hlen : p.length = q.length) (hd : d < p.length)
    (hagree : p.take (d + 1) = q.take (d + 1)) :
    (StrategyNew.compute_weights p boost_alpha).getD d 0 =
      (StrategyNew.compute_weights q boost_alpha).getD d 0 :=
  StrategyNew.computeWeights_noninterference p q boost_alpha d hlen hd hagree

theorem c3_no_lookahead_dip_boost_witness :
    (([1, 2, 3] : List ℝ).length = ([1, 2, 7] : List ℝ).length ∧
      1 < ([1, 2, 3] : List ℝ).length ∧
      ([1, 2, 3] : List ℝ).take 2 = ([1, 2, 7] : List ℝ).take 2) ∧
    (StrategyNew.compute_weights [1, 2, 3] 1.25).getD 1 0 =
      (StrategyNew.compute_weights [1, 2, 7] 1.25).getD 1 0 :=
  ⟨⟨rfl, by norm_num, rfl⟩,
   c3_no_lookahead_dip_boost [1, 2, 3] [1, 2, 7] 1.25 1 rfl
     (by norm_num) rfl⟩

/-! ### The GT pipeline on degenerate windows -/

namespace StrategyGt

/-- A z-score over an all-constant rolling window is 0 (pandas: `0/0` is
NaN, filled with 0). -/
theorem zscoreAt_const_window (s : List ℝ) (win i L : ℕ) (c : ℝ)
    (hroll : rollWindow s win i = List.replicate L c)
    (hget : s.getD i 0 = c) : zscoreAt s win i = 0 := by
  unfold zscoreAt
  rw [hroll, hget, List.length_replicate]
  by_cases hL : L < win / 2
  · rw [if_pos hL]
  · rw [if_neg hL]
    rcases Nat.eq_zero_or_pos L with h0 | hpos
    · subst h0
      simp [StrategyNew.sampleVar]
    · have hL0 : ((L : ℕ) : ℝ) ≠ 0 := by exact_mod_cast hpos.ne'
      rw [List.sum_replicate, nsmul_eq_mul, mul_comm, mul_div_assoc,
        div_self hL0, mul_one, sub_self, zero_div]
      norm_num

theorem rollWindow_replicate (n : ℕ) (c : ℝ) (win i : ℕ) :
    rollWindow (List.replicate n c) win i =
      List.replicate (min (i + 1) n - (i + 1 - win)) c := by
  unfold rollWindow
  rw [List.take_replicate, List.drop_replicate]

theorem zscoreAt_replicate (n : ℕ) (c : ℝ) (win i : ℕ) (hi : i < n) :
    zscoreAt (List.replicate n c) win i = 0 :=
  zscoreAt_const_window _ win i _ c (rollWindow_replicate n c win i)
    (StrategyNew.getD_replicate n c i hi)

/-- The first row's lagged features are identically zero (`shift(1)` places
a NaN in row 0 and `fillna(0)` zeroes it) — for every window. -/
theorem featsAt_zero (p : List ℝ) : featsAt p 0 = [0, 0, 0, 0, 0] := by
  unfold featsAt WINDOWS zLag
  simp

theorem featsAt_replicate (n : ℕ) (c : ℝ) (d : ℕ) (hd : d ≤ n) :
    featsAt (List.replicate n c) d = [0, 0, 0, 0, 0] := by
  unfold featsAt WINDOWS
  rw [List.map_replicate]
  have hz : ∀ win, zLag (List.replicate n (Real.log c)) win d = 0 := by
    intro win
    unfold zLag
    rcases Nat.eq_zero_or_pos d with h0 | hpos
    · rw [if_pos h0]
    · rw [if_neg hpos.ne']
      exact zscoreAt_replicate n _ win (d - 1) (by omega)
  simp [hz]

/-- Because row 0's lagged features vanish, the strategic scores are just
the first column of the alpha matrix. -/
theorem alphaScore_zero_0 : alphaScore [0, 0, 0, 0, 0] 0 = 1.3507 := by
  unfold alphaScore
  rw [Finset.sum_range_succ, Finset.sum_range_succ, Finset.sum_range_succ,
    Finset.sum_range_succ, Finset.sum_range_succ, Finset.sum_range_succ,
    Finset.sum_range_zero]
  norm_num [THETA]

theorem alphaScore_zero_1 : alphaScore [0, 0, 0, 0, 0] 1 = -0.1082 := by
  unfold alphaScore
  rw [Finset.sum_range_succ, Finset.sum_range_succ, Finset.sum_range_succ,
    Finset.sum_range_succ, Finset.sum_range_succ, Finset.sum_range_succ,
    Finset.sum_range_zero]
  norm_num [THETA]

theorem alphaScore_zero_2 : alphaScore [0, 0, 0, 0, 0] 2 = -1.2658 := by
  unfold alphaScore
  rw [Finset.sum_range_succ, Finset.sum_range_succ, Finset.sum_range_succ,
    Finset.sum_range_succ, Finset.sum_range_succ, Finset.sum_range_succ,
    Finset.sum_range_zero]
  norm_num [THETA]

/-- The strategic mixture is the same for every window: day 0's lagged
features are always zero. -/
theorem mixOf_eval (p : List ℝ) :
    mixOf p = softmax [(1.3507 : ℝ), -0.1082, -1.2658] := by
  unfold mixOf
  rw [featsAt_zero, alphaScore_zero_0, alphaScore_zero_1, alphaScore_zero_2]

theorem softmax_dip :
    softmax [(1.3507 : ℝ), -0.1082, -1.2658] =
      [Real.exp 0 /
        (Real.exp 0 + Real.exp (-1.4589) + Real.exp (-2.6165)),
       Real.exp (-1.4589) /
        (Real.exp 0 + Real.exp (-1.4589) + Real.exp (-2.6165)),
       Real.exp (-2.6165) /
        (Real.exp 0 + Real.exp (-1.4589) + Real.exp (-2.6165))] := by
  unfold softmax
  simp only [List.headD_cons, List.foldl_cons, List.foldl_nil,
    List.map_cons, List.map_nil, List.sum_cons, List.sum_nil]
  rw [max_self]
  rw [max_eq_left (by norm_num : (-0.1082 : ℝ) ≤ 1.3507)]
  rw [max_eq_left (by norm_num : (-1.2658 : ℝ) ≤ 1.3507)]
  norm_num
  refine ⟨by ring, by ring, by ring⟩

theorem mixE_pos :
    (0 : ℝ) < Real.exp 0 + Real.exp (-1.4589) + Real.exp (-2.6165) := by
  positivity

theorem mixOf_getD0 (p : List ℝ) :
    (mixOf p).getD 0 0 = Real.exp 0 /
      (Real.exp 0 + Real.exp (-1.4589) + Real.exp (-2.6165)) := by
  rw [mixOf_eval, softmax_dip]
  rfl

theorem mixOf_getD1 (p : List ℝ) :
    (mixOf p).getD 1 0 = Real.exp (-1.4589) /
      (Real.exp 0 + Real.exp (-1.4589) + Real.exp (-2.6165)) := by
  rw [mixOf_eval, softmax_dip]
  rfl

theorem mixOf_getD2 (p : List ℝ) :
    (mixOf p).getD 2 0 = Real.exp (-2.6165) /
      (Real.exp 0 + Real.exp (-1.4589) + Real.exp (-2.6165)) := by
  rw [mixOf_eval, softmax_dip]
  rfl

theorem mixOf_sum (p : List ℝ) :
    (mixOf p).getD 0 0 + (mixOf p).getD 1 0 + (mixOf p).getD 2 0 = 1 := by
  rw [mixOf_getD0, mixOf_getD1, mixOf_getD2, div_add_div_same,
    div_add_div_same, div_self (ne_of_gt mixE_pos)]

theorem mixOf_getD0_pos (p : List ℝ) : 0 < (mixOf p).getD 0 0 := by
  rw [mixOf_getD0]
  positivity

theorem mixOf_getD1_pos (p : List ℝ) : 0 < (mixOf p).getD 1 0 := by
  rw [mixOf_getD1]
  positivity

theorem mixOf_getD2_pos (p : List ℝ) : 0 < (mixOf p).getD 2 0 := by
  rw [mixOf_getD2]
  positivity

theorem exp_neg_bound_1 : Real.exp (-1.4589) ≤ 0.371 := by
  have h1 : Real.exp (-1.4589) ≤ Real.exp (-1) :=
    Real.exp_le_exp.mpr (by norm_num)
  have h2 : Real.exp (-1) = (Real.exp 1)⁻¹ := Real.exp_neg 1
  have h3 : (2.7 : ℝ) < Real.exp 1 :=
    lt_trans (by norm_num) Real.exp_one_gt_d9
  have h4 : (Real.exp 1)⁻¹ ≤ (2.7 : ℝ)⁻¹ :=
    inv_le_inv_of_le (by norm_num) h3.le
  calc Real.exp (-1.4589) ≤ (Real.exp 1)⁻¹ := h2 ▸ h1
    _ ≤ (2.7 : ℝ)⁻¹ := h4
    _ ≤ 0.371 := by norm_num

theorem exp_neg_bound_2 : Real.exp (-2.6165) ≤ 0.138 := by
  have h1 : Real.exp (-2.6165) ≤ Real.exp (-2) :=
    Real.exp_le_exp.mpr (by norm_num)
  have h2 : Real.exp (-2) = (Real.exp 2)⁻¹ := Real.exp_neg 2
  have h3 : (7.29 : ℝ) < Real.exp 2 := by
    have he2 : Real.exp 2 = Real.exp 1 * Real.exp 1 := by
      rw [← Real.exp_add]
      norm_num
    nlinarith [Real.exp_one_gt_d9]
  have h4 : (Real.exp 2)⁻¹ ≤ (7.29 : ℝ)⁻¹ :=
    inv_le_inv_of_le (by norm_num) h3.le
  calc Real.exp (-2.6165) ≤ (Real.exp 2)⁻¹ := h2 ▸ h1
    _ ≤ (7.29 : ℝ)⁻¹ := h4
    _ ≤ 0.138 := by norm_num

/-- The front-loaded Beta(0.5, 5) prototype gets at least 66% of the
mixture: the first strategic score dominates the softmax. -/
theorem mixOf_getD0_ge (p : List ℝ) : (0.66 : ℝ) ≤ (mixOf p).getD 0 0 := by
  rw [mixOf_getD0, Real.exp_zero]
  rw [le_div_iff (by positivity)]
  nlinarith [exp_neg_bound_1, exp_neg_bound_2,
    Real.exp_pos (-1.4589), Real.exp_pos (-2.6165)]

theorem Gamma_five : Real.Gamma 5 = 24 := by
  rw [show (5 : ℝ) = (4 : ℕ) + 1 by norm_num, Real.Gamma_nat_eq_factorial]
  norm_num [Nat.factorial]

theorem Gamma_eleven_half :
    Real.Gamma (11 / 2) = (945 / 32) * Real.sqrt Real.pi := by
  have h12 : Real.Gamma (1 / 2) = Real.sqrt Real.pi := Real.Gamma_one_half_eq
  have h32 : Real.Gamma (3 / 2) = (1 / 2) * Real.sqrt Real.pi := by
    rw [show (3 / 2 : ℝ) = 1 / 2 + 1 by norm_num,
      Real.Gamma_add_one (by norm_num), h12]
  have h52 : Real.Gamma (5 / 2) = (3 / 2) * ((1 / 2) * Real.sqrt Real.pi) := by
    rw [show (5 / 2 : ℝ) = 3 / 2 + 1 by norm_num,
      Real.Gamma_add_one (by norm_num), h32]
  have h72 : Real.Gamma (7 / 2) =
      (5 / 2) * ((3 / 2) * ((1 / 2) * Real.sqrt Real.pi)) := by
    rw [show (7 / 2 : ℝ) = 5 / 2 + 1 by norm_num,
      Real.Gamma_add_one (by norm_num), h52]
  have h92 : Real.Gamma (9 / 2) =
      (7 / 2) * ((5 / 2) * ((3 / 2) * ((1 / 2) * Real.sqrt Real.pi))) := by
    rw [show (9 / 2 : ℝ) = 7 / 2 + 1 by norm_num,
      Real.Gamma_add_one (by norm_num), h72]
  rw [show (11 / 2 : ℝ) = 9 / 2 + 1 by norm_num,
    Real.Gamma_add_one (by norm_num), h92]
  ring

/-- `B(1/2, 5) = 256/315` — the `√π` factors cancel. -/
theorem betaFn_half_five : betaFn 0.5 5 = 256 / 315 := by
  unfold betaFn
  rw [show (0.5 : ℝ) = 1 / 2 by norm_num]
  rw [Real.Gamma_one_half_eq, Gamma_five,
    show (1 / 2 + 5 : ℝ) = 11 / 2 by norm_num, Gamma_eleven_half]
  have hπ : 0 < Real.sqrt Real.pi := Real.sqrt_pos.mpr Real.pi_pos
  field_simp
  ring

theorem betaFn_five_half : betaFn 5 0.5 = 256 / 315 := by
  have h := betaFn_half_five
  unfold betaFn at h ⊢
  rw [mul_comm, show (5 + 0.5 : ℝ) = 0.5 + 5 by norm_num]
  exact h

theorem betaFn_one_one : betaFn 1 1 = 1 := by
  unfold betaFn
  rw [Real.Gamma_one, Real.Gamma_add_one one_ne_zero, Real.Gamma_one]
  norm_num

theorem betaPdf_one_one (t : ℝ) : betaPdf 1 1 t = 1 := by
  unfold betaPdf
  rw [betaFn_one_one, sub_self, Real.rpow_zero, Real.rpow_zero]
  norm_num

theorem betaPdf_half_five_eq (t : ℝ) (ht : 0 ≤ t) :
    betaPdf 0.5 5 t = (Real.sqrt t)⁻¹ * (1 - t) ^ 4 * (315 / 256) := by
  unfold betaPdf
  rw [betaFn_half_five]
  rw [show (0.5 - 1 : ℝ) = -(1 / 2) by norm_num, Real.rpow_neg ht,
    show (5 - 1 : ℝ) = ((4 : ℕ) : ℝ) by norm_num, Real.rpow_natCast]
  rw [show t ^ (1 / 2 : ℝ) = Real.sqrt t from (Real.sqrt_eq_rpow t).symm]
  rw [div_eq_mul_inv, show ((256 : ℝ) / 315)⁻¹ = 315 / 256 by norm_num]

theorem sqrt_hundred : Real.sqrt 100 = 10 := by
  rw [show (100 : ℝ) = 10 ^ 2 by norm_num, Real.sqrt_sq (by norm_num)]

/-- Telescoping bound: `∑_{d<50} 1/√(2d+1) ≤ √99 ≤ 10`. -/
theorem sum_inv_sqrt_odd_le :
    ∑ d ∈ Finset.range 50, (Real.sqrt (2 * (d : ℝ) + 1))⁻¹ ≤ 10 := by
  have key : ∀ d : ℕ, (Real.sqrt (2 * (d : ℝ) + 1))⁻¹ ≤
      Real.sqrt (2 * (((d + 1 : ℕ)) : ℝ) - 1) -
        Real.sqrt (2 * (d : ℝ) - 1) := by
    intro d
    have hcast : (((d + 1 : ℕ)) : ℝ) = (d : ℝ) + 1 := by push_cast; ring
    rw [hcast, show 2 * ((d : ℝ) + 1) - 1 = 2 * (d : ℝ) + 1 by ring]
    rcases Nat.eq_zero_or_pos d with h0 | hpos
    · subst h0
      rw [show 2 * ((0 : ℕ) : ℝ) + 1 = 1 by push_cast; ring,
        show 2 * ((0 : ℕ) : ℝ) - 1 = -1 by push_cast; ring,
        Real.sqrt_one, show Real.sqrt (-1) = 0 from
          Real.sqrt_eq_zero'.mpr (by norm_num)]
      norm_num
    · have hd1 : (1 : ℝ) ≤ (d : ℝ) := by exact_mod_cast hpos
      have ha2 : Real.sqrt (2 * (d : ℝ) - 1) ^ 2 = 2 * (d : ℝ) - 1 :=
        Real.sq_sqrt (by linarith)
      have hb2 : Real.sqrt (2 * (d : ℝ) + 1) ^ 2 = 2 * (d : ℝ) + 1 :=
        Real.sq_sqrt (by linarith)
      have ha0 : 0 ≤ Real.sqrt (2 * (d : ℝ) - 1) := Real.sqrt_nonneg _
      have hb0 : 0 < Real.sqrt (2 * (d : ℝ) + 1) :=
        Real.sqrt_pos.mpr (by linarith)
      set a := Real.sqrt (2 * (d : ℝ) - 1)
      set b := Real.sqrt (2 * (d : ℝ) + 1)
      have habsq : (a * b) ^ 2 = 4 * (d : ℝ) ^ 2 - 1 := by
        rw [mul_pow, ha2, hb2]
        ring
      have hab : a * b ≤ 2 * (d : ℝ) := by
        nlinarith [mul_nonneg ha0 hb0.le]
      rw [inv_eq_one_div, div_le_iff hb0]
      nlinarith
  calc ∑ d ∈ Finset.range 50, (Real.sqrt (2 * (d : ℝ) + 1))⁻¹
      ≤ ∑ d ∈ Finset.range 50,
          (Real.sqrt (2 * (((d + 1 : ℕ)) : ℝ) - 1) -
            Real.sqrt (2 * (d : ℝ) - 1)) :=
        Finset.sum_le_sum (fun d _ => key d)
    _ = Real.sqrt (2 * ((50 : ℕ) : ℝ) - 1) -
          Real.sqrt (2 * ((0 : ℕ) : ℝ) - 1) :=
        Finset.sum_range_sub (fun d => Real.sqrt (2 * (d : ℝ) - 1)) 50
    _ ≤ 10 := by
        have h99 : Real.sqrt (2 * ((50 : ℕ) : ℝ) - 1) ≤ 10 := by
          rw [show 2 * ((50 : ℕ) : ℝ) - 1 = 99 by push_cast; ring]
          calc Real.sqrt 99 ≤ Real.sqrt 100 := Real.sqrt_le_sqrt (by norm_num)
            _ = 10 := sqrt_hundred
        have h0 : 0 ≤ Real.sqrt (2 * ((0 : ℕ) : ℝ) - 1) := Real.sqrt_nonneg _
        linarith

theorem betaPdf_five_half_eq (t : ℝ) (ht : t ≤ 1) :
    betaPdf 5 0.5 t = t ^ 4 * (Real.sqrt (1 - t))⁻¹ * (315 / 256) := by
  unfold betaPdf
  rw [betaFn_five_half]
  rw [show (0.5 - 1 : ℝ) = -(1 / 2) by norm_num,
    Real.rpow_neg (by linarith : (0 : ℝ) ≤ 1 - t),
    show (5 - 1 : ℝ) = ((4 : ℕ) : ℝ) by norm_num, Real.rpow_natCast]
  rw [show (1 - t) ^ (1 / 2 : ℝ) = Real.sqrt (1 - t) from
    (Real.sqrt_eq_rpow (1 - t)).symm]
  rw [div_eq_mul_inv, show ((256 : ℝ) / 315)⁻¹ = 315 / 256 by norm_num]

theorem sqrt_t50 (d : ℕ) :
    Real.sqrt ((2 * (d : ℝ) + 1) / 100) =
      Real.sqrt (2 * (d : ℝ) + 1) / 10 := by
  rw [Real.sqrt_div (by positivity : (0 : ℝ) ≤ 2 * (d : ℝ) + 1) 100,
    sqrt_hundred]

theorem t50_nonneg (d : ℕ) : (0 : ℝ) ≤ (2 * (d : ℝ) + 1) / 100 := by
  positivity

theorem t50_le_one (d : ℕ) (hd : d < 50) : (2 * (d : ℝ) + 1) / 100 ≤ 1 := by
  have : (d : ℝ) ≤ 49 := by exact_mod_cast Nat.lt_succ_iff.mp hd
  rw [div_le_one (by norm_num)]
  linarith

theorem t50_lt_one (d : ℕ) (hd : d < 50) : (2 * (d : ℝ) + 1) / 100 < 1 := by
  have : (d : ℝ) ≤ 49 := by exact_mod_cast Nat.lt_succ_iff.mp hd
  rw [div_lt_one (by norm_num)]
  linarith

theorem betaPdf_half_five_nonneg (t : ℝ) (ht : 0 ≤ t) :
    0 ≤ betaPdf 0.5 5 t := by
  rw [betaPdf_half_five_eq t ht]
  positivity

theorem betaPdf_five_half_nonneg (t : ℝ) (ht : t ≤ 1) :
    0 ≤ betaPdf 5 0.5 t := by
  rw [betaPdf_five_half_eq t ht]
  have h4 : (0 : ℝ) ≤ t ^ 4 := by positivity
  have hs : (0 : ℝ) ≤ (Real.sqrt (1 - t))⁻¹ :=
    inv_nonneg.mpr (Real.sqrt_nonneg _)
  nlinarith

theorem betaPdf1_term_le (d : ℕ) (hd : d < 50) :
    betaPdf 0.5 5 ((2 * (d : ℝ) + 1) / 100) ≤
      (315 / 256) * (10 * (Real.sqrt (2 * (d : ℝ) + 1))⁻¹) := by
  rw [betaPdf_half_five_eq _ (t50_nonneg d), sqrt_t50, inv_div]
  have hpow : (1 - (2 * (d : ℝ) + 1) / 100) ^ 4 ≤ 1 := by
    apply pow_le_one₀
    · linarith [t50_le_one d hd]
    · linarith [t50_nonneg d]
  have hinv : (0 : ℝ) ≤ 10 / Real.sqrt (2 * (d : ℝ) + 1) := by positivity
  calc 10 / Real.sqrt (2 * (d : ℝ) + 1) *
        (1 - (2 * (d : ℝ) + 1) / 100) ^ 4 * (315 / 256)
      ≤ 10 / Real.sqrt (2 * (d : ℝ) + 1) * 1 * (315 / 256) := by
        apply mul_le_mul_of_nonneg_right _ (by norm_num)
        exact mul_le_mul_of_nonneg_left hpow hinv
    _ = (315 / 256) * (10 * (Real.sqrt (2 * (d : ℝ) + 1))⁻¹) := by
        rw [div_eq_mul_inv]
        ring

theorem betaPdf3_term_le (d : ℕ) (hd : d < 50) :
    betaPdf 5 0.5 ((2 * (d : ℝ) + 1) / 100) ≤
      (315 / 256) * (10 * (Real.sqrt (2 * ((49 - d : ℕ) : ℝ) + 1))⁻¹) := by
  have hd49 : (d : ℝ) ≤ 49 := by exact_mod_cast Nat.lt_succ_iff.mp hd
  have hsub : ((49 - d : ℕ) : ℝ) = 49 - (d : ℝ) := by
    rw [Nat.cast_sub (by omega)]
    norm_num
  have hmirror : 1 - (2 * (d : ℝ) + 1) / 100 =
      (2 * ((49 - d : ℕ) : ℝ) + 1) / 100 := by
    rw [hsub]
    ring
  rw [betaPdf_five_half_eq _ (t50_le_one d hd), hmirror, sqrt_t50, inv_div]
  have hpow : ((2 * (d : ℝ) + 1) / 100) ^ 4 ≤ 1 := by
    apply pow_le_one₀ (t50_nonneg d) (t50_le_one d hd)
  have hinv : (0 : ℝ) ≤ 10 / Real.sqrt (2 * ((49 - d : ℕ) : ℝ) + 1) := by
    positivity
  calc ((2 * (d : ℝ) + 1) / 100) ^ 4 *
        (10 / Real.sqrt (2 * ((49 - d : ℕ) : ℝ) + 1)) * (315 / 256)
      ≤ 1 * (10 / Real.sqrt (2 * ((49 - d : ℕ) : ℝ) + 1)) * (315 / 256) := by
        apply mul_le_mul_of_nonneg_right _ (by norm_num)
        exact mul_le_mul_of_nonneg_right hpow hinv
    _ = (315 / 256) * (10 * (Real.sqrt (2 * ((49 - d : ℕ) : ℝ) + 1))⁻¹) := by
        rw [div_eq_mul_inv]
        ring

theorem sum_betaPdf1_le :
    ∑ d ∈ Finset.range 50, betaPdf 0.5 5 ((2 * (d : ℝ) + 1) / 100) ≤
      123.1 := by
  calc ∑ d ∈ Finset.range 50, betaPdf 0.5 5 ((2 * (d : ℝ) + 1) / 100)
      ≤ ∑ d ∈ Finset.range 50,
          (315 / 256) * (10 * (Real.sqrt (2 * (d : ℝ) + 1))⁻¹) :=
        Finset.sum_le_sum (fun d hd =>
          betaPdf1_term_le d (Finset.mem_range.mp hd))
    _ = (315 / 256) * 10 *
          ∑ d ∈ Finset.range 50, (Real.sqrt (2 * (d : ℝ) + 1))⁻¹ := by
        rw [Finset.mul_sum]
        apply Finset.sum_congr rfl
        intro d _
        ring
    _ ≤ (315 / 256) * 10 * 10 := by
        apply mul_le_mul_of_nonneg_left sum_inv_sqrt_odd_le (by norm_num)
    _ ≤ 123.1 := by norm_num

theorem sum_betaPdf3_le :
    ∑ d ∈ Finset.range 50, betaPdf 5 0.5 ((2 * (d : ℝ) + 1) / 100) ≤
      123.1 := by
  have hreflect : ∑ d ∈ Finset.range 50,
      (Real.sqrt (2 * ((49 - d : ℕ) : ℝ) + 1))⁻¹ =
      ∑ d ∈ Finset.range 50, (Real.sqrt (2 * (d : ℝ) + 1))⁻¹ := by
    have := Finset.sum_range_reflect
      (fun d => (Real.sqrt (2 * (d : ℝ) + 1))⁻¹) 50
    simpa using this
  calc ∑ d ∈ Finset.range 50, betaPdf 5 0.5 ((2 * (d : ℝ) + 1) / 100)
      ≤ ∑ d ∈ Finset.range 50,
          (315 / 256) * (10 * (Real.sqrt (2 * ((49 - d : ℕ) : ℝ) + 1))⁻¹) :=
        Finset.sum_le_sum (fun d hd =>
          betaPdf3_term_le d (Finset.mem_range.mp hd))
    _ = (315 / 256) * 10 *
          ∑ d ∈ Finset.range 50,
            (Real.sqrt (2 * ((49 - d : ℕ) : ℝ) + 1))⁻¹ := by
        rw [Finset.mul_sum]
        apply Finset.sum_congr rfl
        intro d _
        ring
    _ = (315 / 256) * 10 *
          ∑ d ∈ Finset.range 50, (Real.sqrt (2 * (d : ℝ) + 1))⁻¹ := by
        rw [hreflect]
    _ ≤ (315 / 256) * 10 * 10 := by
        apply mul_le_mul_of_nonneg_left sum_inv_sqrt_odd_le (by norm_num)
    _ ≤ 123.1 := by norm_num

theorem beta_mix_pdf_50_eq (mix : List ℝ) (d : ℕ) :
    beta_mix_pdf 50 mix d =
      (mix.getD 0 0 * betaPdf 0.5 5 ((2 * (d : ℝ) + 1) / 100) +
       mix.getD 1 0 * betaPdf 1 1 ((2 * (d : ℝ) + 1) / 100) +
       mix.getD 2 0 * betaPdf 5 0.5 ((2 * (d : ℝ) + 1) / 100)) / 50 := by
  simp only [beta_mix_pdf]
  have ht : ((2 * d + 1 : ℕ) : ℝ) / (2 * ((50 : ℕ) : ℝ)) =
      (2 * (d : ℝ) + 1) / 100 := by
    push_cast
    ring
  rw [ht]
  norm_num

theorem beta_mix_pdf_50_pos (p : List ℝ) (d : ℕ) (hd : d < 50) :
    0 < beta_mix_pdf 50 (mixOf p) d := by
  rw [beta_mix_pdf_50_eq, betaPdf_one_one]
  have h1 : 0 ≤ (mixOf p).getD 0 0 * betaPdf 0.5 5 ((2 * (d : ℝ) + 1) / 100) :=
    mul_nonneg (mixOf_getD0_pos p).le
      (betaPdf_half_five_nonneg _ (t50_nonneg d))
  have h3 : 0 ≤ (mixOf p).getD 2 0 * betaPdf 5 0.5 ((2 * (d : ℝ) + 1) / 100) :=
    mul_nonneg (mixOf_getD2_pos p).le
      (betaPdf_five_half_nonneg _ (t50_le_one d hd))
  have h2 : 0 < (mixOf p).getD 1 0 * 1 := by
    rw [mul_one]
    exact mixOf_getD1_pos p
  apply div_pos _ (by norm_num)
  linarith

/-- The front-loaded prototype puts mass `≥ 0.155` on the first of 50 slots
(uniform would be `0.02`). -/
theorem beta_mix_pdf_50_zero_ge (p : List ℝ) :
    (0.155 : ℝ) ≤ beta_mix_pdf 50 (mixOf p) 0 := by
  rw [beta_mix_pdf_50_eq, betaPdf_one_one]
  have ht0 : (2 * ((0 : ℕ) : ℝ) + 1) / 100 = 1 / 100 := by norm_num
  rw [ht0]
  have hpdf1 : (11.8 : ℝ) ≤ betaPdf 0.5 5 (1 / 100) := by
    rw [betaPdf_half_five_eq _ (by norm_num)]
    rw [show (1 / 100 : ℝ) = (1 / 10) ^ 2 by norm_num,
      Real.sqrt_sq (by norm_num)]
    norm_num
  have h3 : 0 ≤ (mixOf p).getD 2 0 * betaPdf 5 0.5 (1 / 100) :=
    mul_nonneg (mixOf_getD2_pos p).le
      (betaPdf_five_half_nonneg _ (by norm_num))
  have h2 : 0 ≤ (mixOf p).getD 1 0 * 1 := by
    rw [mul_one]
    exact (mixOf_getD1_pos p).le
  have h1 : (0.66 : ℝ) * 11.8 ≤ (mixOf p).getD 0 0 * betaPdf 0.5 5 (1 / 100) := by
    apply mul_le_mul (mixOf_getD0_ge p) hpdf1 (by norm_num)
    linarith [mixOf_getD0_pos p]
  rw [le_div_iff (by norm_num)]
  nlinarith

theorem sum_beta_mix_50_le (p : List ℝ) :
    ∑ d ∈ Finset.range 50, beta_mix_pdf 50 (mixOf p) d ≤ 2.462 := by
  have hrw : ∀ d ∈ Finset.range 50, beta_mix_pdf 50 (mixOf p) d =
      ((mixOf p).getD 0 0 * betaPdf 0.5 5 ((2 * (d : ℝ) + 1) / 100) +
       (mixOf p).getD 1 0 * 1 +
       (mixOf p).getD 2 0 * betaPdf 5 0.5 ((2 * (d : ℝ) + 1) / 100)) / 50 := by
    intro d _
    rw [beta_mix_pdf_50_eq, betaPdf_one_one]
  rw [Finset.sum_congr rfl hrw, ← Finset.sum_div]
  rw [Finset.sum_add_distrib, Finset.sum_add_distrib, ← Finset.mul_sum,
    ← Finset.mul_sum, ← Finset.mul_sum]
  have hone : ∑ _d ∈ Finset.range 50, (1 : ℝ) = 50 := by
    simp
  rw [hone]
  have hS1 := sum_betaPdf1_le
  have hS3 := sum_betaPdf3_le
  have hS1n : 0 ≤ ∑ d ∈ Finset.range 50,
      betaPdf 0.5 5 ((2 * (d : ℝ) + 1) / 100) :=
    Finset.sum_nonneg (fun d _ => betaPdf_half_five_nonneg _ (t50_nonneg d))
  have hS3n : 0 ≤ ∑ d ∈ Finset.range 50,
      betaPdf 5 0.5 ((2 * (d : ℝ) + 1) / 100) :=
    Finset.sum_nonneg (fun d hd =>
      betaPdf_five_half_nonneg _ (t50_le_one d (Finset.mem_range.mp hd)))
  have hm0 := mixOf_getD0_pos p
  have hm1 := mixOf_getD1_pos p
  have hm2 := mixOf_getD2_pos p
  have hsum := mixOf_sum p
  rw [div_le_iff (by norm_num : (0 : ℝ) < 50)]
  nlinarith [mul_le_mul_of_nonneg_left hS1 hm0.le,
    mul_le_mul_of_nonneg_left hS3 hm2.le]

/-- When a row's lagged features vanish the tactical tilt is `exp 0 = 1`. -/
theorem rawWeight_of_feats_zero (p : List ℝ) (mix : List ℝ) (d : ℕ)
    (hf : featsAt p d = [0, 0, 0, 0, 0]) :
    rawWeight p mix d = beta_mix_pdf p.length mix d := by
  unfold rawWeight
  rw [hf]
  have hdot : ∑ k ∈ Finset.range 5,
      ([0, 0, 0, 0, 0] : List ℝ).getD k 0 * THETA.getD (18 + k) 0 = 0 := by
    rw [Finset.sum_range_succ, Finset.sum_range_succ, Finset.sum_range_succ,
      Finset.sum_range_succ, Finset.sum_range_succ, Finset.sum_range_zero]
    norm_num
  rw [hdot, neg_zero, Real.exp_zero, mul_one]

theorem rawPos_eq_of_pos (raw : List ℝ) (hne : raw ≠ [])
    (h : ∀ x ∈ raw, 0 < x) : rawPos raw = raw := by
  unfold rawPos
  have hclip : raw.map (fun x => max x 0) = raw := by
    calc raw.map (fun x => max x 0) = raw.map id :=
          List.map_congr_left (fun x hx => max_eq_left (h x hx).le)
      _ = raw := List.map_id _
  rw [hclip, if_neg (ne_of_gt (List.sum_pos raw h hne))]

theorem baselineOf_getD_of_pos (raw : List ℝ) (hne : raw ≠ [])
    (h : ∀ x ∈ raw, 0 < x) (d : ℕ) (hd : d < raw.length) :
    (baselineOf raw).getD d 0 = raw.getD d 0 / raw.sum := by
  unfold baselineOf
  rw [rawPos_eq_of_pos raw hne h]
  rw [List.getD_eq_getElem?_getD, List.getElem?_map,
    List.getElem?_eq_getElem hd, List.getD_eq_getElem?_getD,
    List.getElem?_eq_getElem hd]
  rfl

theorem gt_computeWeights_eq_alloc (p : List ℝ) (h50 : 50 ≤ p.length) :
    compute_weights true p =
      allocate_sequential
        ((List.range p.length).map (rawWeight p (mixOf p))) := by
  unfold compute_weights
  rw [if_neg (by omega), if_neg (by omega), if_neg (by simp)]

/-- Sample variance of `m` zeros followed by a single spike `x`. -/
theorem sampleVar_spike (m : ℕ) (hm : 1 ≤ m) (x : ℝ) :
    StrategyNew.sampleVar (List.replicate m (0 : ℝ) ++ [x]) =
      x ^ 2 / (m + 1) := by
  have hM : ((m : ℕ) : ℝ) ≠ 0 := by
    have h : (0 : ℕ) < m := hm
    exact_mod_cast h.ne'
  have hM1 : ((m : ℕ) : ℝ) + 1 ≠ 0 := by positivity
  unfold StrategyNew.sampleVar
  have hlen : (List.replicate m (0 : ℝ) ++ [x]).length = m + 1 := by simp
  have hsum : (List.replicate m (0 : ℝ) ++ [x]).sum = x := by simp
  rw [hlen, hsum, List.map_append, List.map_replicate]
  simp only [List.map_cons, List.map_nil, List.sum_append, List.sum_cons,
    List.sum_nil, List.sum_replicate, nsmul_eq_mul]
  push_cast
  rw [show ((m : ℝ) + 1 - 1) = (m : ℝ) by ring]
  field_simp
  ring

/-- The z-score of the spike row itself: `m/√(m+1)` before clipping. -/
theorem zscoreAt_spike (s : List ℝ) (win i m : ℕ) (x : ℝ)
    (hroll : rollWindow s win i = List.replicate m (0 : ℝ) ++ [x])
    (hget : s.getD i 0 = x) (hm : 1 ≤ m) (hminp : ¬(m + 1 < win / 2))
    (hx : 0 < x) :
    zscoreAt s win i =
      max (-4) (min 4 ((m : ℝ) / Real.sqrt ((m : ℝ) + 1))) := by
  have hM1 : (0 : ℝ) < (m : ℝ) + 1 := by positivity
  unfold zscoreAt
  rw [hroll, hget, sampleVar_spike m hm x]
  rw [show (List.replicate m (0 : ℝ) ++ [x]).length = m + 1 by simp]
  rw [if_neg hminp]
  rw [show (List.replicate m (0 : ℝ) ++ [x]).sum = x by simp]
  congr 2
  have hsd : Real.sqrt (x ^ 2 / ((m : ℝ) + 1)) =
      x / Real.sqrt ((m : ℝ) + 1) := by
    rw [Real.sqrt_div (sq_nonneg x), Real.sqrt_sq hx.le]
  push_cast
  rw [hsd]
  set S := Real.sqrt ((m : ℝ) + 1) with hSdef
  have hS0 : 0 < S := Real.sqrt_pos.mpr hM1
  have hS2 : S ^ 2 = (m : ℝ) + 1 := Real.sq_sqrt hM1.le
  rw [div_div_eq_mul_div, div_eq_div_iff hx.ne' hS0.ne']
  have hexp : (x - x / ((m : ℝ) + 1)) * S * S =
      (x - x / ((m : ℝ) + 1)) * ((m : ℝ) + 1) := by
    rw [mul_assoc, ← sq, hS2]
  rw [hexp]
  field_simp
  ring

/-- Log prices of the perturbed window `48 × 1, 3, 1`. -/
theorem mapLog_pB :
    (List.replicate 48 (1 : ℝ) ++ [3, 1]).map Real.log =
      List.replicate 48 (0 : ℝ) ++ [Real.log 3, 0] := by
  simp [Real.log_one]

theorem sB_take (d : ℕ) (hd : d ≤ 48) :
    (List.replicate 48 (0 : ℝ) ++ [Real.log 3, 0]).take d =
      List.replicate d (0 : ℝ) := by
  rw [List.take_append_of_le_length
    (by simp only [List.length_replicate]; omega), List.take_replicate]
  congr 1
  omega

theorem sB_take49 :
    (List.replicate 48 (0 : ℝ) ++ [Real.log 3, 0]).take 49 =
      List.replicate 48 (0 : ℝ) ++ [Real.log 3] := by
  rw [List.take_append_eq_append_take, List.take_replicate,
    List.length_replicate, min_eq_right (by omega)]
  congr 1

theorem sB_get48 :
    (List.replicate 48 (0 : ℝ) ++ [Real.log 3, 0]).getD 48 0 =
      Real.log 3 := by
  rw [List.getD_append_right _ _ _ _
    (by simp only [List.length_replicate]; omega)]
  simp

/-- Lagged features of the perturbed window vanish on every day whose
yesterday still lies in the constant prefix. -/
theorem pB_feats_le48 (d : ℕ) (hd : d ≤ 48) :
    featsAt (List.replicate 48 (1 : ℝ) ++ [3, 1]) d = [0, 0, 0, 0, 0] := by
  unfold featsAt WINDOWS
  rw [mapLog_pB]
  have hz : ∀ win,
      zLag (List.replicate 48 (0 : ℝ) ++ [Real.log 3, 0]) win d = 0 := by
    intro win
    unfold zLag
    rcases Nat.eq_zero_or_pos d with h0 | hpos
    · rw [if_pos h0]
    · rw [if_neg hpos.ne']
      apply zscoreAt_const_window _ win (d - 1) (d - (d - win)) 0
      · unfold rollWindow
        rw [show d - 1 + 1 = d by omega, sB_take d hd, List.drop_replicate]
      · rw [List.getD_append _ _ _ _
          (by simp only [List.length_replicate]; omega)]
        exact StrategyNew.getD_replicate 48 0 (d - 1) (by omega)
  simp only [List.map_cons, List.map_nil]
  rw [hz 30, hz 90, hz 180, hz 365, hz 1461]

theorem sB_roll30 :
    rollWindow (List.replicate 48 (0 : ℝ) ++ [Real.log 3, 0]) 30 48 =
      List.replicate 29 (0 : ℝ) ++ [Real.log 3] := by
  unfold rollWindow
  rw [show (48 + 1 : ℕ) = 49 by norm_num, sB_take49,
    show (49 - 30 : ℕ) = 19 by norm_num, List.drop_append_eq_append_drop,
    List.drop_replicate, List.length_replicate]
  congr 1

theorem sB_roll90 :
    rollWindow (List.replicate 48 (0 : ℝ) ++ [Real.log 3, 0]) 90 48 =
      List.replicate 48 (0 : ℝ) ++ [Real.log 3] := by
  unfold rollWindow
  rw [show (48 + 1 : ℕ) = 49 by norm_num,
    show (49 - 90 : ℕ) = 0 by norm_num, List.drop_zero, sB_take49]

/-- The 30-day z-score at the spiked row clips to `4`:
`29 / √30 ≈ 5.29 > 4`. -/
theorem sB_z30 :
    zscoreAt (List.replicate 48 (0 : ℝ) ++ [Real.log 3, 0]) 30 48 = 4 := by
  rw [zscoreAt_spike _ 30 48 29 (Real.log 3) sB_roll30 sB_get48
    (by norm_num) (by norm_num) (Real.log_pos (by norm_num))]
  push_cast
  norm_num
  have hpos : (0 : ℝ) < Real.sqrt 30 := Real.sqrt_pos.mpr (by norm_num)
  have hle : Real.sqrt 30 ≤ 6 := by
    nlinarith [Real.sq_sqrt (show (0 : ℝ) ≤ 30 by norm_num),
      Real.sqrt_nonneg 30]
  have h4 : (4 : ℝ) ≤ 29 / Real.sqrt 30 := by
    rw [le_div_iff hpos]
    nlinarith
  rw [min_eq_left h4, max_eq_right (by norm_num : (-4 : ℝ) ≤ 4)]

/-- The 90-day z-score at the spiked row clips to `4`: `48 / 7 > 4`. -/
theorem sB_z90 :
    zscoreAt (List.replicate 48 (0 : ℝ) ++ [Real.log 3, 0]) 90 48 = 4 := by
  rw [zscoreAt_spike _ 90 48 48 (Real.log 3) sB_roll90 sB_get48
    (by norm_num) (by norm_num) (Real.log_pos (by norm_num))]
  push_cast
  norm_num
  have h49 : Real.sqrt 49 = 7 := by
    rw [show (49 : ℝ) = 7 ^ 2 by norm_num,
      Real.sqrt_sq (by norm_num : (0 : ℝ) ≤ 7)]
  have h4 : (4 : ℝ) ≤ 48 / Real.sqrt 49 := by
    rw [h49]
    norm_num
  rw [min_eq_left h4, max_eq_right (by norm_num : (-4 : ℝ) ≤ 4)]

/-- The long windows see only 49 samples at row 48, below their
`min_periods`, so their z-scores are `0`. -/
theorem sB_zlong (win : ℕ) (hwin : 100 ≤ win) :
    zscoreAt (List.replicate 48 (0 : ℝ) ++ [Real.log 3, 0]) win 48 = 0 := by
  have hlen : (rollWindow (List.replicate 48 (0 : ℝ) ++ [Real.log 3, 0])
      win 48).length < win / 2 := by
    unfold rollWindow
    rw [List.length_drop, List.length_take]
    simp only [List.length_append, List.length_replicate, List.length_cons,
      List.length_nil]
    omega
  unfold zscoreAt
  rw [if_pos hlen]

/-- Day 49 of the perturbed window sees the lagged features `[4, 4, 0, 0,
0]`. -/
theorem pB_feats49 :
    featsAt (List.replicate 48 (1 : ℝ) ++ [3, 1]) 49 = [4, 4, 0, 0, 0] := by
  unfold featsAt WINDOWS
  rw [mapLog_pB]
  simp only [List.map_cons, List.map_nil]
  have hz : ∀ win : ℕ,
      zLag (List.replicate 48 (0 : ℝ) ++ [Real.log 3, 0]) win 49 =
        zscoreAt (List.replicate 48 (0 : ℝ) ++ [Real.log 3, 0]) win 48 := by
    intro win
    unfold zLag
    rw [if_neg (by norm_num)]
  rw [hz 30, hz 90, hz 180, hz 365, hz 1461, sB_z30, sB_z90,
    sB_zlong 180 (by norm_num), sB_zlong 365 (by norm_num),
    sB_zlong 1461 (by norm_num)]

/-- Day 49's raw weight in the perturbed window carries the tactical tilt
`exp(-(4·0.5704 + 4·0.0)) = exp(-2.2816)`. -/
theorem pB_raw49 (mix : List ℝ) :
    rawWeight (List.replicate 48 (1 : ℝ) ++ [3, 1]) mix 49 =
      beta_mix_pdf 50 mix 49 * Real.exp (-(2.2816 : ℝ)) := by
  unfold rawWeight
  rw [pB_feats49]
  have hlen50 : (List.replicate 48 (1 : ℝ) ++ [3, 1]).length = 50 := by
    simp
  rw [hlen50]
  have hdot : ∑ k ∈ Finset.range 5,
      ([4, 4, 0, 0, 0] : List ℝ).getD k 0 * THETA.getD (18 + k) 0 =
        2.2816 := by
    rw [Finset.sum_range_succ, Finset.sum_range_succ, Finset.sum_range_succ,
      Finset.sum_range_succ, Finset.sum_range_succ, Finset.sum_range_zero]
    norm_num [THETA]
  rw [hdot]

end StrategyGt

/-- C4 counterexample: on the valid 50-day constant-price window the
Strategic/Tactical allocator gives day 0 a weight of at least `1/25` —
twice the uniform `1/50`, a deviation of at least 100% of the uniform
value, outside any floating-point tolerance. -/
theorem c4_counterexample :
    (1 / 25 : ℝ) ≤
      (StrategyGt.compute_weights true (List.replicate 50 (1 : ℝ))).getD 0 0 ∧
    (1 / 50 : ℝ) ≤
      |(StrategyGt.compute_weights true
          (List.replicate 50 (1 : ℝ))).getD 0 0 - 1 / 50| := by
  set pA := List.replicate 50 (1 : ℝ) with hpA
  have hlen : pA.length = 50 := by rw [hpA, List.length_replicate]
  have hfeats : ∀ d, d ≤ 50 → StrategyGt.featsAt pA d = [0, 0, 0, 0, 0] :=
    fun d hd => StrategyGt.featsAt_replicate 50 1 d hd
  have hraw : ∀ d, d < 50 →
      StrategyGt.rawWeight pA (StrategyGt.mixOf pA) d =
        StrategyGt.beta_mix_pdf 50 (StrategyGt.mixOf pA) d := by
    intro d hd
    rw [StrategyGt.rawWeight_of_feats_zero pA _ d (hfeats d hd.le), hlen]
  set raws := (List.range pA.length).map
    (StrategyGt.rawWeight pA (StrategyGt.mixOf pA)) with hraws
  have hrawslen : raws.length = 50 := by
    rw [hraws, List.length_map, List.length_range, hlen]
  have hrawsne : raws ≠ [] := by
    intro h0
    rw [h0] at hrawslen
    simp at hrawslen
  have hrawspos : ∀ x ∈ raws, 0 < x := by
    intro x hx
    rw [hraws] at hx
    obtain ⟨d, hdm, hdx⟩ := List.mem_map.mp hx
    rw [List.mem_range, hlen] at hdm
    rw [← hdx, hraw d hdm]
    exact StrategyGt.beta_mix_pdf_50_pos pA d hdm
  have hr0 : raws.getD 0 0 =
      StrategyGt.beta_mix_pdf 50 (StrategyGt.mixOf pA) 0 := by
    rw [hraws, list_getD_map_range _ (by rw [hlen]; norm_num), hraw 0 (by norm_num)]
  have hrsum : raws.sum = ∑ d ∈ Finset.range 50,
      StrategyGt.beta_mix_pdf 50 (StrategyGt.mixOf pA) d := by
    rw [hraws, hlen, list_sum_map_range]
    exact Finset.sum_congr rfl (fun d hd => hraw d (Finset.mem_range.mp hd))
  have hrsum_le : raws.sum ≤ 2.462 := by
    rw [hrsum]
    exact StrategyGt.sum_beta_mix_50_le pA
  have hrsum_pos : 0 < raws.sum := List.sum_pos raws hrawspos hrawsne
  have hr0_ge : (0.155 : ℝ) ≤ raws.getD 0 0 := by
    rw [hr0]
    exact StrategyGt.beta_mix_pdf_50_zero_ge pA
  have hb0 : (StrategyGt.baselineOf raws).getD 0 0 =
      raws.getD 0 0 / raws.sum := by
    exact StrategyGt.baselineOf_getD_of_pos raws hrawsne hrawspos 0
      (by rw [hrawslen]; norm_num)
  have hb0_ge : (1 / 16 : ℝ) ≤ (StrategyGt.baselineOf raws).getD 0 0 := by
    rw [hb0]
    calc (1 / 16 : ℝ) ≤ 0.155 / 2.462 := by norm_num
      _ ≤ raws.getD 0 0 / 2.462 :=
          (div_le_div_right (by norm_num)).mpr hr0_ge
      _ ≤ raws.getD 0 0 / raws.sum :=
          div_le_div_of_nonneg_left (by linarith) hrsum_pos hrsum_le
  have hw : (StrategyGt.compute_weights true pA).getD 0 0 =
      MIN_WEIGHT + (StrategyGt.baselineOf raws).getD 0 0 *
        (1 - MIN_WEIGHT * raws.length) := by
    rw [StrategyGt.gt_computeWeights_eq_alloc pA (by rw [hlen]), ← hraws]
    exact StrategyGt.allocSeq_getD raws hrawsne 0 (by rw [hrawslen]; norm_num)
  constructor
  · rw [hw, hrawslen]
    rw [MIN_WEIGHT]
    nlinarith [hb0_ge]
  · rw [hw, hrawslen, MIN_WEIGHT]
    rw [abs_of_nonneg (by nlinarith [hb0_ge])]
    nlinarith [hb0_ge]

/-- C3 counterexample: the Strategic/Tactical allocator is not
no-lookahead. Two 50-day windows that agree at every index except day 48
(price 1 versus 3) produce different weights for day 0: the drain
normalizer divides day 0's raw weight by the sum of raw weights over the
whole window, and the day-48 spike shrinks day 49's contribution to that
sum through the tactical tilt `exp(-2.2816)`. -/
theorem c3_counterexample :
    (List.replicate 50 (1 : ℝ)).length =
        (List.replicate 48 (1 : ℝ) ++ [3, 1]).length ∧
    (∀ i, i ≠ 48 →
      (List.replicate 50 (1 : ℝ)).getD i 0 =
        (List.replicate 48 (1 : ℝ) ++ [3, 1]).getD i 0) ∧
    (StrategyGt.compute_weights true (List.replicate 50 (1 : ℝ))).getD 0 0 ≠
      (StrategyGt.compute_weights true
        (List.replicate 48 (1 : ℝ) ++ [3, 1])).getD 0 0 := by
  set pA := List.replicate 50 (1 : ℝ) with hpA
  set pB := List.replicate 48 (1 : ℝ) ++ [3, 1] with hpB
  have hlenA : pA.length = 50 := by rw [hpA, List.length_replicate]
  have hlenB : pB.length = 50 := by rw [hpB]; simp
  refine ⟨by rw [hlenA, hlenB], ?_, ?_⟩
  · intro i hi
    rcases lt_or_le i 48 with h48 | h48
    · rw [hpA, hpB, StrategyNew.getD_replicate 50 1 i (by omega),
        List.getD_append _ _ _ _
          (by simp only [List.length_replicate]; omega),
        StrategyNew.getD_replicate 48 1 i h48]
    · rcases lt_or_le i 50 with h50 | h50
      · have h49 : i = 49 := by omega
        subst h49
        rw [hpA, hpB, StrategyNew.getD_replicate 50 1 49 (by omega),
          List.getD_append_right _ _ _ _
            (by simp only [List.length_replicate]; omega)]
        simp
      · rw [List.getD_eq_default _ _ (by omega : pA.length ≤ i),
          List.getD_eq_default _ _ (by omega : pB.length ≤ i)]
  · have hmixB : StrategyGt.mixOf pB = StrategyGt.mixOf pA := by
      rw [StrategyGt.mixOf_eval, StrategyGt.mixOf_eval]
    set mix := StrategyGt.mixOf pA with hmixdef
    set E := Real.exp (-(2.2816 : ℝ)) with hE
    have hE1 : E < 1 := Real.exp_lt_one_iff.mpr (by norm_num)
    have hE0 : 0 < E := Real.exp_pos _
    set rawsA := (List.range pA.length).map (StrategyGt.rawWeight pA mix)
      with hrawsA
    set rawsB := (List.range pB.length).map (StrategyGt.rawWeight pB mix)
      with hrawsB
    have hwA : StrategyGt.compute_weights true pA =
        StrategyGt.allocate_sequential rawsA := by
      rw [StrategyGt.gt_computeWeights_eq_alloc pA (by rw [hlenA]), hrawsA,
        hmixdef]
    have hwB : StrategyGt.compute_weights true pB =
        StrategyGt.allocate_sequential rawsB := by
      rw [StrategyGt.gt_computeWeights_eq_alloc pB (by rw [hlenB]), hrawsB,
        hmixdef, hmixB]
    have hrawAeq : ∀ d, d < 50 → StrategyGt.rawWeight pA mix d =
        StrategyGt.beta_mix_pdf 50 mix d := by
      intro d hd
      have hfA : StrategyGt.featsAt pA d = [0, 0, 0, 0, 0] := by
        rw [hpA]
        exact StrategyGt.featsAt_replicate 50 1 d (by omega)
      rw [StrategyGt.rawWeight_of_feats_zero pA mix d hfA, hlenA]
    have hrawBeq : ∀ d, d < 49 → StrategyGt.rawWeight pB mix d =
        StrategyGt.beta_mix_pdf 50 mix d := by
      intro d hd
      have hfB : StrategyGt.featsAt pB d = [0, 0, 0, 0, 0] := by
        rw [hpB]
        exact StrategyGt.pB_feats_le48 d (by omega)
      rw [StrategyGt.rawWeight_of_feats_zero pB mix d hfB, hlenB]
    have hrawB49 : StrategyGt.rawWeight pB mix 49 =
        StrategyGt.beta_mix_pdf 50 mix 49 * E := by
      rw [hpB, StrategyGt.pB_raw49 mix, hE]
    have hBpos : ∀ d, d < 50 → 0 < StrategyGt.beta_mix_pdf 50 mix d := by
      intro d hd
      rw [hmixdef]
      exact StrategyGt.beta_mix_pdf_50_pos pA d hd
    have hsumA : rawsA.sum = ∑ d ∈ Finset.range 50,
        StrategyGt.beta_mix_pdf 50 mix d := by
      rw [hrawsA, hlenA, list_sum_map_range]
      exact Finset.sum_congr rfl
        (fun d hd => hrawAeq d (Finset.mem_range.mp hd))
    have hsum49B : ∑ d ∈ Finset.range 49, StrategyGt.rawWeight pB mix d =
        ∑ d ∈ Finset.range 49, StrategyGt.beta_mix_pdf 50 mix d :=
      Finset.sum_congr rfl (fun d hd => hrawBeq d (Finset.mem_range.mp hd))
    have hsumB : rawsB.sum = (∑ d ∈ Finset.range 49,
        StrategyGt.beta_mix_pdf 50 mix d) +
        StrategyGt.beta_mix_pdf 50 mix 49 * E := by
      rw [hrawsB, hlenB, list_sum_map_range, Finset.sum_range_succ,
        hrawB49, hsum49B]
    have hsumA' : rawsA.sum = (∑ d ∈ Finset.range 49,
        StrategyGt.beta_mix_pdf 50 mix d) +
        StrategyGt.beta_mix_pdf 50 mix 49 := by
      rw [hsumA, Finset.sum_range_succ]
    have hlt : rawsB.sum < rawsA.sum := by
      rw [hsumB, hsumA']
      have h49 := hBpos 49 (by omega)
      nlinarith [h49, hE1, hE0]
    have hsumBpos : 0 < rawsB.sum := by
      rw [hsumB]
      have h49 := hBpos 49 (by omega)
      have hterm : 0 < StrategyGt.beta_mix_pdf 50 mix 49 * E :=
        mul_pos h49 hE0
      have hsum0 : 0 ≤ ∑ d ∈ Finset.range 49,
          StrategyGt.beta_mix_pdf 50 mix d :=
        Finset.sum_nonneg (fun d hd => (hBpos d
          (by have := Finset.mem_range.mp hd; omega)).le)
      linarith
    have hApos : ∀ x ∈ rawsA, 0 < x := by
      intro x hx
      rw [hrawsA] at hx
      obtain ⟨d, hdm, hdx⟩ := List.mem_map.mp hx
      rw [List.mem_range, hlenA] at hdm
      rw [← hdx, hrawAeq d hdm]
      exact hBpos d hdm
    have hBposL : ∀ x ∈ rawsB, 0 < x := by
      intro x hx
      rw [hrawsB] at hx
      obtain ⟨d, hdm, hdx⟩ := List.mem_map.mp hx
      rw [List.mem_range, hlenB] at hdm
      rcases lt_or_le d 49 with h49 | h49
      · rw [← hdx, hrawBeq d h49]
        exact hBpos d (by omega)
      · have hd49 : d = 49 := by omega
        rw [← hdx, hd49, hrawB49]
        exact mul_pos (hBpos 49 (by omega)) hE0
    have hlenrA : rawsA.length = 50 := by
      rw [hrawsA, List.length_map, List.length_range, hlenA]
    have hlenrB : rawsB.length = 50 := by
      rw [hrawsB, List.length_map, List.length_range, hlenB]
    have hneA : rawsA ≠ [] := by
      intro h0
      rw [h0] at hlenrA
      simp at hlenrA
    have hneB : rawsB ≠ [] := by
      intro h0
      rw [h0] at hlenrB
      simp at hlenrB
    have hA0 : rawsA.getD 0 0 = StrategyGt.beta_mix_pdf 50 mix 0 := by
      rw [hrawsA, list_getD_map_range _ (by rw [hlenA]; norm_num)]
      exact hrawAeq 0 (by omega)
    have hB0 : rawsB.getD 0 0 = StrategyGt.beta_mix_pdf 50 mix 0 := by
      rw [hrawsB, list_getD_map_range _ (by rw [hlenB]; norm_num)]
      exact hrawBeq 0 (by omega)
    have hwA0 : (StrategyGt.compute_weights true pA).getD 0 0 =
        MIN_WEIGHT + (rawsA.getD 0 0 / rawsA.sum) *
          (1 - MIN_WEIGHT * 50) := by
      rw [hwA,
        StrategyGt.allocSeq_getD rawsA hneA 0 (by rw [hlenrA]; norm_num),
        StrategyGt.baselineOf_getD_of_pos rawsA hneA hApos 0
          (by rw [hlenrA]; norm_num), hlenrA]
      norm_num
    have hwB0 : (StrategyGt.compute_weights true pB).getD 0 0 =
        MIN_WEIGHT + (rawsB.getD 0 0 / rawsB.sum) *
          (1 - MIN_WEIGHT * 50) := by
      rw [hwB,
        StrategyGt.allocSeq_getD rawsB hneB 0 (by rw [hlenrB]; norm_num),
        StrategyGt.baselineOf_getD_of_pos rawsB hneB hBposL 0
          (by rw [hlenrB]; norm_num), hlenrB]
      norm_num
    have hstrict : (StrategyGt.compute_weights true pA).getD 0 0 <
        (StrategyGt.compute_weights true pB).getD 0 0 := by
      rw [hwA0, hwB0]
      have hb0 := hBpos 0 (by omega)
      have hdivlt : rawsA.getD 0 0 / rawsA.sum <
          rawsB.getD 0 0 / rawsB.sum := by
        rw [hA0, hB0]
        exact div_lt_div_of_pos_left hb0 hsumBpos hlt
      have hfac : (0 : ℝ) < 1 - MIN_WEIGHT * 50 := by
        rw [MIN_WEIGHT]
        norm_num
      nlinarith [mul_lt_mul_of_pos_right hdivlt hfac]
    exact ne_of_lt hstrict

end Btc

end
